import Mathlib

/-!
Verification of the aferoassert file-tree assertion library.

The development shallowly embeds the Go sources (`tree.go` / `assertions.go`):
the tree data model, the tag codec, the YAML (de)serialisation of trees, the
flattener and the filesystem matcher `assertTree`.  External collaborators of
the repository (the yaml document model, the `structtag` tag syntax, the
`regexp` tag pattern, `strconv` and `filepath` helpers, and the `afero` walk)
are modelled at the interface the code uses, faithfully to their documented
behaviour; every such modelling choice is recorded in the corresponding doc
comment.  Go strings are modelled as Lean `String`s manipulated through their
character lists; `os.FileMode` (a `uint32`) is modelled as `Nat` together with
explicit masks.
-/

namespace Aferoassert

/-! ### os.FileMode flag constants

The thirteen symbolic flag bits of `os.FileMode` used by `fileModeNames`
(`os` package values: `ModeDir = 1<<31` down to `ModeIrregular = 1<<19`),
and the permission mask `ModePerm = 0o777`. -/

/-- Bit of `os.ModeDir`. -/
def MODE_DIR : Nat := 2 ^ 31

/-- Bit of `os.ModeAppend`. -/
def MODE_APPEND : Nat := 2 ^ 30

/-- Bit of `os.ModeExclusive`. -/
def MODE_EXCLUSIVE : Nat := 2 ^ 29

/-- Bit of `os.ModeTemporary`. -/
def MODE_TEMPORARY : Nat := 2 ^ 28

/-- Bit of `os.ModeSymlink`. -/
def MODE_SYMLINK : Nat := 2 ^ 27

/-- Bit of `os.ModeDevice`. -/
def MODE_DEVICE : Nat := 2 ^ 26

/-- Bit of `os.ModeNamedPipe`. -/
def MODE_NAMED_PIPE : Nat := 2 ^ 25

/-- Bit of `os.ModeSocket`. -/
def MODE_SOCKET : Nat := 2 ^ 24

/-- Bit of `os.ModeSetuid`. -/
def MODE_SETUID : Nat := 2 ^ 23

/-- Bit of `os.ModeSetgid`. -/
def MODE_SETGID : Nat := 2 ^ 22

/-- Bit of `os.ModeCharDevice`. -/
def MODE_CHAR_DEVICE : Nat := 2 ^ 21

/-- Bit of `os.ModeSticky`. -/
def MODE_STICKY : Nat := 2 ^ 20

/-- Bit of `os.ModeIrregular`. -/
def MODE_IRREGULAR : Nat := 2 ^ 19

/-- Mask of `os.ModePerm` (`0o777`). -/
def MODE_PERM : Nat := 0o777

/-- Union of the thirteen named flag bits (bits 19..31). -/
def FLAG_MASK : Nat := 0xFFF80000

/-- The `fileModeNames` table of `tree.go`: flag bit to symbolic name.  The Go
value is a map; the model lists its entries (entry order is irrelevant to the
functions reading the table, which is proved where it matters). -/
def fileModeNamesList : List (Nat × String) :=
  [(MODE_DIR, "Dir"), (MODE_APPEND, "Append"), (MODE_EXCLUSIVE, "Exclusive"),
   (MODE_TEMPORARY, "Temporary"), (MODE_SYMLINK, "Symlink"), (MODE_DEVICE, "Device"),
   (MODE_NAMED_PIPE, "NamedPipe"), (MODE_SOCKET, "Socket"), (MODE_SETUID, "Setuid"),
   (MODE_SETGID, "Setgid"), (MODE_CHAR_DEVICE, "CharDevice"), (MODE_STICKY, "Sticky"),
   (MODE_IRREGULAR, "Irregular")]

/-! ### Sorting by a string key (models Go `sort.Slice` / `sort.Strings`)

Go's sorts are comparison sorts on `<`; on inputs whose keys are pairwise
distinct the ascending result is unique, so any sorting algorithm models them.
Insertion sort is used. -/

/-- Insert `a` into `l` before the first element whose key is not below `a`'s. -/
def insertBy (f : α → String) (a : α) : List α → List α
  | [] => [a]
  | b :: l => if f a ≤ f b then a :: b :: l else b :: insertBy f a l

/-- Insertion sort by the string key `f`, ascending. -/
def sortBy (f : α → String) : List α → List α
  | [] => []
  | a :: l => insertBy f a (sortBy f l)

theorem insertBy_perm (f : α → String) (a : α) (l : List α) :
    List.Perm (insertBy f a l) (a :: l) := by
  induction l with
  | nil => simp [insertBy]
  | cons b t ih =>
    simp only [insertBy]
    split
    · exact List.Perm.refl _
    · exact ((ih.cons b).trans (List.Perm.swap a b t))

theorem sortBy_perm (f : α → String) (l : List α) : List.Perm (sortBy f l) l := by
  induction l with
  | nil => simp [sortBy]
  | cons a t ih => exact (insertBy_perm f a (sortBy f t)).trans (ih.cons a)

theorem insertBy_sorted (f : α → String) (a : α) (l : List α)
    (h : l.Pairwise (fun x y => f x ≤ f y)) :
    (insertBy f a l).Pairwise (fun x y => f x ≤ f y) := by
  induction l with
  | nil => simp [insertBy]
  | cons b t ih =>
    simp only [insertBy]
    rcases List.pairwise_cons.1 h with ⟨hb, ht⟩
    split
    · refine List.pairwise_cons.2 ⟨?_, h⟩
      intro y hy
      rcases List.mem_cons.1 hy with rfl | hy'
      · assumption
      · exact le_trans (by assumption) (hb _ hy')
    · refine List.pairwise_cons.2 ⟨?_, ih ht⟩
      intro y hy
      have hmem := (insertBy_perm f a t).mem_iff.1 hy
      rcases List.mem_cons.1 hmem with rfl | hy'
      · exact le_of_not_le (by assumption)
      · exact hb _ hy'

theorem sortBy_sorted (f : α → String) (l : List α) :
    (sortBy f l).Pairwise (fun x y => f x ≤ f y) := by
  induction l with
  | nil => simp [sortBy]
  | cons a t ih => exact insertBy_sorted f a (sortBy f t) ih

theorem sortBy_mem (f : α → String) (a : α) (l : List α) :
    a ∈ sortBy f l ↔ a ∈ l := (sortBy_perm f l).mem_iff

/-- Sorting a list whose keys are already strictly ascending leaves it unchanged. -/
theorem sortBy_eq_self (f : α → String) (l : List α)
    (h : l.Pairwise (fun x y => f x < f y)) : sortBy f l = l := by
  induction l with
  | nil => rfl
  | cons a t ih =>
    rcases List.pairwise_cons.1 h with ⟨ha, ht⟩
    simp only [sortBy, ih ht]
    cases t with
    | nil => rfl
    | cons b u =>
      simp only [insertBy]
      rw [if_pos (le_of_lt (ha b (by simp)))]

/-! ### Octal rendering and Go `strconv.ParseUint` -/

/-- Octal digit character of `d < 8`. -/
def octDigit (d : Nat) : Char := Char.ofNat (48 + d)

/-- Octal digit characters of `n`, most significant first, fuelled so that the
definition computes by kernel reduction (the fuel is immaterial once it is at
least `n`, which `octRep` ensures). -/
def octRepAux : Nat → Nat → List Char
  | 0, n => [octDigit (n % 8)]
  | fuel + 1, n => if n < 8 then [octDigit n] else octRepAux fuel (n / 8) ++ [octDigit (n % 8)]

/-- Octal digit string of `n` (no leading zeros except for `n = 0`), as printed
by Go's `%o` verb. -/
def octRep (n : Nat) : String := ⟨octRepAux n n⟩

/-- Numeric value of a digit character for the given base, if valid.  Models
the digit handling of Go `strconv.ParseUint` for bases 8 and 10 (letter digits
only arise for bases above 10, which the code never uses). -/
def digitVal (base : Nat) (c : Char) : Option Nat :=
  if 48 ≤ c.toNat ∧ c.toNat < 48 + base ∧ c.toNat ≤ 57 then some (c.toNat - 48) else none

/-- Go `strconv.ParseUint(s, base, 32)`: every character must be a digit of the
base, the string must be nonempty, and the value must fit in 32 bits
(otherwise Go reports a range error). -/
def parseUintGo (s : String) (base : Nat) : Option Nat :=
  if s.data = [] then none
  else do
    let v ← s.data.foldlM (fun acc c => (digitVal base c).map (fun d => acc * base + d)) 0
    if v < 2 ^ 32 then some v else none

/-- Go `strings.Split(s, sep)` for a single-character separator, on character
lists: always returns at least one (possibly empty) segment. -/
def splitChar (c : Char) : List Char → List (List Char)
  | [] => [[]]
  | x :: xs =>
    match splitChar c xs with
    | h :: t => if x = c then [] :: h :: t else (x :: h) :: t
    | [] => [[x]]

/-- Go `strings.Split(s, "|")` as used by `parseTag`. -/
def splitPipe (s : String) : List String :=
  (splitChar '|' s.data).map (fun l => ⟨l⟩)

/-- Go `strings.Join(l, sep)`. -/
def joinSep (sep : String) : List String → String
  | [] => ""
  | [x] => x
  | x :: y :: t => x ++ sep ++ joinSep sep (y :: t)

/-! ### The tag codec of `tree.go` -/

/-- `fileModeToString` of `tree.go`, generalised over the table it iterates:
collect the names of the set bits, sort them, join with `"|"`.  The Go
function iterates the `fileModeNames` map in unspecified order; sorting makes
the result order-independent (proved below). -/
def fileModeToStringOn (table : List (Nat × String)) (mode : Nat) : String :=
  joinSep "|"
    (sortBy id ((table.filter (fun p => mode &&& p.1 != 0)).map (·.2)))

/-- `fileModeToString` of `tree.go`. -/
def fileModeToString (mode : Nat) : String :=
  fileModeToStringOn fileModeNamesList mode

/-- `fileModeFromString` of `tree.go`: look the symbolic name up in the
`fileModeNames` table (Go iterates the map comparing names; names are pairwise
distinct, so the lookup is deterministic). -/
def fileModeFromString (s : String) : Except String Nat :=
  match fileModeNamesList.find? (fun p => p.2 == s) with
  | some p => .ok p.1
  | none => .error "invalid file mode"

/-- `parseTag` of `tree.go`: numeric literals (octal when `0`-prefixed via
`strings.HasPrefix(tag, "0")`, else decimal) parse directly; otherwise the
value is a `|`-separated list of symbolic flag names OR-ed together. -/
def parseTag (s : String) : Except String Nat :=
  let base := if s.data.head? = some '0' then 8 else 10
  match parseUintGo s base with
  | some v => .ok v
  | none => (splitPipe s).foldlM (fun acc seg => (fileModeFromString seg).map (acc ||| ·)) 0

/-! ### Tree node model (`FileTree` / `FileNode` / `FileModeTags` of `tree.go`)

Go's `FileModeTags` is `map[string]*os.FileMode` and `FileTree` is
`map[string]FileNode`.  A Go map is modelled as an association list with
replace-on-set semantics; every code path that builds one starts from the
empty map, so keys stay pairwise distinct by construction.  `FileTree` values
are only ever consumed through their node values (`Flatten`, `MarshalYAML`
range over values; `UnmarshalYAML` keys nodes by their own names), so a tree
is modelled as the list of its nodes. -/

/-- Tag map: tag key to mode value (`FileModeTags`). -/
abbrev TagMap := List (String × Nat)

/-- Map lookup on an association list (Go map read). -/
def tagsGet (t : TagMap) (k : String) : Option Nat :=
  (t.find? (fun p => p.1 == k)).map (·.2)

/-- Map write on an association list: replace the first entry with this key,
or append (Go `t[k] = v`). -/
def tagsSet : TagMap → String → Nat → TagMap
  | [], k, v => [(k, v)]
  | (k', v') :: t, k, v => if k' = k then (k, v) :: t else (k', v') :: tagsSet t k v

/-- `FileNode` of `tree.go`: name, tags, children (the node list of the
`Children` tree), directory flag. -/
inductive FileNode where
  | mk (name : String) (tags : TagMap) (children : List FileNode) (isDir : Bool)
deriving Inhabited

mutual

/-- Boolean equality on nodes (the `DecidableEq` deriving handler does not
support nested inductives). -/
def FileNode.beq : FileNode → FileNode → Bool
  | .mk n1 t1 c1 d1, .mk n2 t2 c2 d2 =>
    n1 == n2 && t1 == t2 && FileNode.beqList c1 c2 && d1 == d2

/-- Boolean equality on node lists. -/
def FileNode.beqList : List FileNode → List FileNode → Bool
  | [], [] => true
  | a :: l1, b :: l2 => FileNode.beq a b && FileNode.beqList l1 l2
  | _, _ => false

end

mutual

theorem FileNode.beq_iff : ∀ a b : FileNode, FileNode.beq a b = true ↔ a = b
  | .mk n1 t1 c1 d1, .mk n2 t2 c2 d2 => by
    simp only [FileNode.beq, Bool.and_eq_true, beq_iff_eq, FileNode.mk.injEq]
    rw [show (FileNode.beqList c1 c2 = true) ↔ c1 = c2 from FileNode.beqList_iff c1 c2]
    tauto

theorem FileNode.beqList_iff : ∀ l1 l2 : List FileNode,
    FileNode.beqList l1 l2 = true ↔ l1 = l2
  | [], [] => by simp [FileNode.beqList]
  | [], _ :: _ => by simp [FileNode.beqList]
  | _ :: _, [] => by simp [FileNode.beqList]
  | a :: l1, b :: l2 => by
    simp only [FileNode.beqList, Bool.and_eq_true, List.cons.injEq]
    rw [show (FileNode.beq a b = true) ↔ a = b from FileNode.beq_iff a b,
      show (FileNode.beqList l1 l2 = true) ↔ l1 = l2 from FileNode.beqList_iff l1 l2]

end

instance : DecidableEq FileNode := fun a b =>
  decidable_of_iff _ (FileNode.beq_iff a b)

/-- Field `Name`. -/
def FileNode.name : FileNode → String
  | .mk n _ _ _ => n

/-- Field `Tags`. -/
def FileNode.tags : FileNode → TagMap
  | .mk _ t _ _ => t

/-- Field `Children` (as its node list). -/
def FileNode.children : FileNode → List FileNode
  | .mk _ _ c _ => c

/-- Field `IsDir`. -/
def FileNode.isDir : FileNode → Bool
  | .mk _ _ _ d => d

/-- `FileModeTags.Mode` (`t["mode"]`). -/
def tagsMode (t : TagMap) : Option Nat := tagsGet t "mode"

/-- `FileModeTags.Type` (`t["type"]`). -/
def tagsType (t : TagMap) : Option Nat := tagsGet t "type"

/-- `FileModeTags.Perm` (`t["perm"]`). -/
def tagsPerm (t : TagMap) : Option Nat := tagsGet t "perm"

/-- Octal rendering of a `perm` tag value, Go `fmt.Sprintf("0%o", v)`. -/
def permOctal (v : Nat) : String := "0" ++ octRep v

/-- `FileModeTags.String` of `tree.go`: build a struct-tag string from the
`mode`, `type` and `perm` entries, in that order (the order the code `Set`s
them; `structtag.Tags.String` joins the tags with single spaces).  `mode` and
`type` values render through `fileModeToString`; `perm` renders as
`0%o` of the value masked with `os.ModePerm`. -/
def tagsString (t : TagMap) : String :=
  joinSep " "
    (((tagsMode t).map (fun m => "mode:\"" ++ fileModeToString m ++ "\"")).toList ++
     ((tagsType t).map (fun m => "type:\"" ++ fileModeToString m ++ "\"")).toList ++
     ((tagsPerm t).map (fun m => "perm:\"" ++ permOctal (m &&& MODE_PERM) ++ "\"")).toList)

/-! ### Flatten -/

/-- Expectation map from relative path to node (`map[string]FileNode`). -/
abbrev PathMap := List (String × FileNode)

/-- Map lookup (Go map read). -/
def mapGet (m : PathMap) (k : String) : Option FileNode :=
  (m.find? (fun p => p.1 == k)).map (·.2)

/-- Map write (Go `m[k] = v`): replace the first entry with this key or append. -/
def mapSet : PathMap → String × FileNode → PathMap
  | [], e => [e]
  | (k', v') :: t, e => if k' = e.1 then e :: t else (k', v') :: mapSet t e

/-- Map delete (Go `delete(m, k)`). -/
def mapDel (m : PathMap) (k : String) : PathMap :=
  m.filter (fun p => p.1 ≠ k)

/-- Modelled from the spec: `filepath.Join(root, name)` of the Go standard
library is external to the repository; per the spec the flattener keys are
`rootPrefix/name`, forward-slash-joined, with an empty prefix contributing
nothing (`Join("", name) = name`).  Lexical cleaning of `filepath.Join` is not
modelled; it is the identity on the slash-free names the spec's grammar
produces. -/
def pathJoin (root name : String) : String :=
  if root = "" then name else root ++ "/" ++ name

mutual

/-- `FileNode.Flatten` of `tree.go`: map the node's own path to the node, then
merge the flattened children (Go writes them into the map one by one). -/
def flattenNode (n : FileNode) (root : String) : PathMap :=
  match n with
  | .mk name _tags children _isDir =>
    (flattenTreeAcc children (pathJoin root name) []).foldl mapSet
      [(pathJoin root name, n)]

/-- `FileTree.Flatten` of `tree.go`: the `for _, n := range t` loop merging
each node's flattened map into the accumulated result. -/
def flattenTreeAcc (t : List FileNode) (root : String) (acc : PathMap) : PathMap :=
  match t with
  | [] => acc
  | n :: rest => flattenTreeAcc rest root ((flattenNode n root).foldl mapSet acc)

end

/-- `FileTree.Flatten` of `tree.go` (loop entry point, empty initial map). -/
def flattenTree (t : List FileNode) (root : String) : PathMap :=
  flattenTreeAcc t root []

/-! ### The filesystem matcher (`assertTree` of `assertions.go`)

The `afero.Walk` collaborator is external: it performs a depth-first
traversal, invoking the callback once per visited entry, and returns the
first error the callback returns (the callback forwards walk errors, which
aborts the walk).  A run of the walk is therefore modelled as the list of
successfully visited entries `(path, mode)` in visit order, followed by an
optional walk error.  `os.FileInfo.IsDir()` is `Mode().IsDir()`, i.e. the
`ModeDir` bit; `os.PathSeparator` is `'/'`.  The reporting collaborator
(`assert.Fail`) records formatted messages; messages are modelled as a
structured type carrying the formatted fields the spec talks about. -/

/-- Discrepancy messages recorded through `assert.Fail`. -/
inductive Msg where
  | unexpected (path : String)
  | notDir (path : String)
  | isDirMsg (path : String)
  | modeMismatch (path actual expected : String)
  | permMismatch (path actual expected : String)
  | walkFail (root err : String)
  | leftover (root : String) (paths : List String)
deriving DecidableEq

/-- Matcher working state: the `expectations` map, the `result` flag, and the
messages recorded so far. -/
structure MState where
  exps : PathMap
  result : Bool
  msgs : List Msg

/-- The `fail` closure of `assertTree`: set `result` to false and record the
message. -/
def failSt (s : MState) (m : Msg) : MState :=
  { s with result := false, msgs := s.msgs ++ [m] }

/-- Go `strings.TrimPrefix(s, p)` on character lists. -/
def dropPre : List Char → List Char → Option (List Char)
  | [], s => some s
  | _ :: _, [] => none
  | c :: p, d :: s => if c = d then dropPre p s else none

/-- Go `strings.TrimPrefix(s, p)`. -/
def trimPreS (p s : String) : String :=
  match dropPre p.data s.data with
  | some r => ⟨r⟩
  | none => s

/-- `info.IsDir()`: the `ModeDir` bit of the entry's mode. -/
def isDirMode (m : Nat) : Bool := m &&& MODE_DIR != 0

/-- The `mode`-tag check of the walk callback: if the expected node has a
`mode` tag, compare the symbolic renderings of the expected and the actual
mode, recording a discrepancy with both renderings on mismatch. -/
def modeCheck (path : String) (tags : TagMap) (m : Nat) (s : MState) : MState :=
  match tagsMode tags with
  | some mv =>
    if fileModeToString mv ≠ fileModeToString m then
      failSt s (.modeMismatch path (fileModeToString m) (fileModeToString mv))
    else s
  | none => s

/-- The `perm`-tag check of the walk callback: if the expected node has a
`perm` tag, compare its value with the actual mode masked to `os.ModePerm`,
recording a discrepancy with both values in octal on mismatch. -/
def permCheck (path : String) (tags : TagMap) (m : Nat) (s : MState) : MState :=
  match tagsPerm tags with
  | some pv =>
    if pv ≠ m &&& MODE_PERM then
      failSt s (.permMismatch path (permOctal (m &&& MODE_PERM)) (permOctal pv))
    else s
  | none => s

/-- The walk callback body of `assertTree`, for one visited entry
`(path, mode)`: skip the root, look the relative path up in `expectations`
(unexpected entries fail only in exhaustive mode), check the directory/file
kind (mismatch returns at once), then run the tag checks and consume the
path from `expectations`. -/
def visitEntry (root : String) (exhaustive : Bool) (s : MState) (e : String × Nat) :
    MState :=
  if e.1 = root then s
  else
    let rel := trimPreS (root ++ "/") e.1
    match mapGet s.exps rel with
    | none => if exhaustive then failSt s (.unexpected e.1) else s
    | some expected =>
      if expected.isDir && !isDirMode e.2 then failSt s (.notDir e.1)
      else if !expected.isDir && isDirMode e.2 then failSt s (.isDirMsg e.1)
      else
        let s2 := permCheck e.1 expected.tags e.2 (modeCheck e.1 expected.tags e.2 s)
        { s2 with exps := mapDel s2.exps rel }

/-- `assertTree` of `assertions.go`, for a walk visiting `entries` and then
returning `werr`.  `root` is the already-cleaned root path (the
`filepath.Clean` call on entry is external normalisation of the argument).
Returns the verdict and the recorded messages. -/
def assertTreeModel (tree : List FileNode) (root : String) (exhaustive : Bool)
    (entries : List (String × Nat)) (werr : Option String) : Bool × List Msg :=
  let s := entries.foldl (visitEntry root exhaustive) ⟨flattenTree tree "", true, []⟩
  match werr with
  | some e => (false, (failSt s (.walkFail root e)).msgs)
  | none =>
    if !s.result then (false, s.msgs)
    else if s.exps.isEmpty then (true, s.msgs)
    else (false, (failSt s (.leftover root (s.exps.map (·.1)))).msgs)

/-! ### Step lemmas for the matcher

`visitEntry` factors into three pure functions of the expectation map and the
visited entry: the messages it records, the updated expectation map, and the
`result` flag (false as soon as any message was recorded). -/

/-- Relative path of a visited entry (`strings.TrimPrefix(path, root+"/")`). -/
def relOf (root : String) (e : String × Nat) : String :=
  trimPreS (root ++ "/") e.1

/-- Messages recorded by `visitEntry` for one entry, as a function of the
expectation map. -/
def stepMsgs (root : String) (ex : Bool) (exps : PathMap) (e : String × Nat) :
    List Msg :=
  if e.1 = root then []
  else
    match mapGet exps (relOf root e) with
    | none => if ex then [.unexpected e.1] else []
    | some expected =>
      if expected.isDir && !isDirMode e.2 then [.notDir e.1]
      else if !expected.isDir && isDirMode e.2 then [.isDirMsg e.1]
      else
        (match tagsMode expected.tags with
         | some mv =>
           if fileModeToString mv ≠ fileModeToString e.2 then
             [Msg.modeMismatch e.1 (fileModeToString e.2) (fileModeToString mv)]
           else []
         | none => []) ++
        (match tagsPerm expected.tags with
         | some pv =>
           if pv ≠ e.2 &&& MODE_PERM then
             [Msg.permMismatch e.1 (permOctal (e.2 &&& MODE_PERM)) (permOctal pv)]
           else []
         | none => [])

/-- Expectation map after `visitEntry` processes one entry. -/
def expsStep (root : String) (exps : PathMap) (e : String × Nat) : PathMap :=
  if e.1 = root then exps
  else
    match mapGet exps (relOf root e) with
    | none => exps
    | some expected =>
      if expected.isDir && !isDirMode e.2 then exps
      else if !expected.isDir && isDirMode e.2 then exps
      else mapDel exps (relOf root e)

theorem modeCheck_eq (p : String) (t : TagMap) (m : Nat) (s : MState) :
    modeCheck p t m s =
      ⟨s.exps,
       s.result &&
         (match tagsMode t with
          | some mv =>
            if fileModeToString mv ≠ fileModeToString m then
              [Msg.modeMismatch p (fileModeToString m) (fileModeToString mv)]
            else ([] : List Msg)
          | none => []).isEmpty,
       s.msgs ++
         (match tagsMode t with
          | some mv =>
            if fileModeToString mv ≠ fileModeToString m then
              [Msg.modeMismatch p (fileModeToString m) (fileModeToString mv)]
            else []
          | none => [])⟩ := by
  cases s with
  | mk exps result msgs =>
    unfold modeCheck
    cases tagsMode t with
    | none => simp
    | some mv =>
      by_cases h : fileModeToString mv ≠ fileModeToString m <;> simp [h, failSt]

theorem permCheck_eq (p : String) (t : TagMap) (m : Nat) (s : MState) :
    permCheck p t m s =
      ⟨s.exps,
       s.result &&
         (match tagsPerm t with
          | some pv =>
            if pv ≠ m &&& MODE_PERM then
              [Msg.permMismatch p (permOctal (m &&& MODE_PERM)) (permOctal pv)]
            else ([] : List Msg)
          | none => []).isEmpty,
       s.msgs ++
         (match tagsPerm t with
          | some pv =>
            if pv ≠ m &&& MODE_PERM then
              [Msg.permMismatch p (permOctal (m &&& MODE_PERM)) (permOctal pv)]
            else []
          | none => [])⟩ := by
  cases s with
  | mk exps result msgs =>
    unfold permCheck
    cases tagsPerm t with
    | none => simp
    | some pv =>
      by_cases h : pv ≠ m &&& MODE_PERM <;> simp [h, failSt]

theorem listIsEmpty_append (l1 l2 : List α) :
    (l1 ++ l2).isEmpty = (l1.isEmpty && l2.isEmpty) := by
  cases l1 <;> cases l2 <;> rfl

/-- Master step lemma: one callback invocation, decomposed. -/
theorem visitEntry_eq (root : String) (ex : Bool) (s : MState) (e : String × Nat) :
    visitEntry root ex s e =
      ⟨expsStep root s.exps e,
       s.result && (stepMsgs root ex s.exps e).isEmpty,
       s.msgs ++ stepMsgs root ex s.exps e⟩ := by
  cases s with
  | mk exps result msgs =>
    unfold visitEntry stepMsgs expsStep
    by_cases hroot : e.1 = root
    · simp [hroot]
    · simp only [hroot, if_false, ite_false]
      cases hget : mapGet exps (relOf root e) with
      | none =>
        simp only [relOf] at hget
        cases ex <;> simp [relOf, hget, failSt]
      | some expected =>
        simp only [relOf] at hget
        simp only [relOf, hget]
        by_cases h1 : expected.isDir && !isDirMode e.2
        · simp [h1, failSt]
        · by_cases h2 : !expected.isDir && isDirMode e.2
          · simp [h1, h2, failSt]
          · simp only [h1, h2, if_false, Bool.false_eq_true]
            rw [modeCheck_eq, permCheck_eq]
            simp only []
            cases htm : tagsMode expected.tags <;>
              cases htp : tagsPerm expected.tags <;>
                simp_all [listIsEmpty_append, Bool.and_assoc, List.append_assoc]

/-- Expectation map after the whole walk, as a fold of `expsStep`. -/
def foldExps (root : String) (exps : PathMap) (entries : List (String × Nat)) : PathMap :=
  entries.foldl (expsStep root) exps

/-- Messages recorded during the whole walk. -/
def foldMsgs (root : String) (ex : Bool) (exps : PathMap) :
    List (String × Nat) → List Msg
  | [] => []
  | e :: t => stepMsgs root ex exps e ++ foldMsgs root ex (expsStep root exps e) t

/-- Whole-walk decomposition of the matcher's fold. -/
theorem foldVisit_eq (root : String) (ex : Bool) (entries : List (String × Nat))
    (s : MState) :
    entries.foldl (visitEntry root ex) s =
      ⟨foldExps root s.exps entries,
       s.result && (foldMsgs root ex s.exps entries).isEmpty,
       s.msgs ++ foldMsgs root ex s.exps entries⟩ := by
  induction entries generalizing s with
  | nil => cases s <;> simp [foldExps, foldMsgs]
  | cons e t ih =>
    rw [List.foldl_cons, visitEntry_eq, ih]
    simp [foldExps, foldMsgs, listIsEmpty_append, Bool.and_assoc]

/-- In containment mode each step records either nothing or exactly what the
exhaustive step records. -/
theorem stepMsgs_contain (root : String) (exps : PathMap) (e : String × Nat) :
    stepMsgs root false exps e = [] ∨
      stepMsgs root false exps e = stepMsgs root true exps e := by
  unfold stepMsgs
  by_cases hroot : e.1 = root
  · simp [hroot]
  · simp only [hroot, ite_false]
    cases mapGet exps (relOf root e) with
    | none => simp
    | some expected => right; rfl

theorem foldMsgs_contain (root : String) (entries : List (String × Nat))
    (exps : PathMap) (h : foldMsgs root true exps entries = []) :
    foldMsgs root false exps entries = [] := by
  induction entries generalizing exps with
  | nil => rfl
  | cons e t ih =>
    unfold foldMsgs at h ⊢
    rcases List.append_eq_nil.1 h with ⟨h1, h2⟩
    rcases stepMsgs_contain root exps e with h3 | h3 <;>
      simp [h3, h1, ih _ h2]

/-- C2: success of the exhaustive run implies success of the containment run
on the same tree, root and walk observations. -/
theorem treeEqual_implies_treeContains (tree : List FileNode) (root : String)
    (entries : List (String × Nat)) (werr : Option String)
    (h : (assertTreeModel tree root true entries werr).1 = true) :
    (assertTreeModel tree root false entries werr).1 = true := by
  unfold assertTreeModel at h ⊢
  rw [foldVisit_eq] at h ⊢
  cases werr with
  | some e => simp at h
  | none =>
    simp only at h ⊢
    rcases hm : foldMsgs root true (flattenTree tree "") entries with _ | ⟨m, t⟩
    · rw [foldMsgs_contain root entries _ hm]
      rw [hm] at h
      simpa using h
    · rw [hm] at h
      simp at h

/-- Witness for `treeEqual_implies_treeContains`. -/
theorem treeEqual_implies_treeContains_witness :
    (assertTreeModel [.mk "a.txt" [] [] false] "root" false
      [("root/a.txt", 420)] none).1 = true :=
  treeEqual_implies_treeContains [.mk "a.txt" [] [] false] "root"
    [("root/a.txt", 420)] none (by decide)

/-- A per-entry discrepancy message (neither the walk-failure message nor the
aggregated leftover message). -/
def entryMsg : Msg → Prop
  | .walkFail _ _ => False
  | .leftover _ _ => False
  | _ => True

theorem stepMsgs_entryMsg (root : String) (ex : Bool) (exps : PathMap)
    (e : String × Nat) : ∀ x ∈ stepMsgs root ex exps e, entryMsg x := by
  intro x hx
  unfold stepMsgs at hx
  split at hx
  · simp at hx
  · split at hx
    · split at hx
      · simp at hx; subst hx; trivial
      · simp at hx
    · split at hx
      · simp at hx; subst hx; trivial
      · split at hx
        · simp at hx; subst hx; trivial
        · rcases List.mem_append.1 hx with h | h
          · split at h
            · split at h
              · simp at h; subst h; trivial
              · simp at h
            · simp at h
          · split at h
            · split at h
              · simp at h; subst h; trivial
              · simp at h
            · simp at h

theorem foldMsgs_entryMsg (root : String) (ex : Bool) (entries : List (String × Nat))
    (exps : PathMap) : ∀ x ∈ foldMsgs root ex exps entries, entryMsg x := by
  induction entries generalizing exps with
  | nil => intro x hx; simp [foldMsgs] at hx
  | cons e t ih =>
    intro x hx
    unfold foldMsgs at hx
    rcases List.mem_append.1 hx with h | h
    · exact stepMsgs_entryMsg root ex exps e x h
    · exact ih _ x h

/-- C4: a failing walk yields the failure verdict, exactly one walk-error
message (appended last), and no aggregated leftover message — the
leftover-expectations check is skipped. -/
theorem walkError_single_fatal (tree : List FileNode) (root : String) (ex : Bool)
    (entries : List (String × Nat)) (err : String) :
    (assertTreeModel tree root ex entries (some err)).1 = false ∧
    (assertTreeModel tree root ex entries (some err)).2 =
      foldMsgs root ex (flattenTree tree "") entries ++ [.walkFail root err] ∧
    ((assertTreeModel tree root ex entries (some err)).2.filter
        (fun x => match x with | .walkFail _ _ => true | _ => false)) =
      [.walkFail root err] ∧
    ∀ r ps, Msg.leftover r ps ∉ (assertTreeModel tree root ex entries (some err)).2 := by
  have heq : assertTreeModel tree root ex entries (some err) =
      (false, foldMsgs root ex (flattenTree tree "") entries ++ [.walkFail root err]) := by
    unfold assertTreeModel
    rw [foldVisit_eq]
    simp [failSt]
  rw [heq]
  have h1 : (foldMsgs root ex (flattenTree tree "") entries).filter
      (fun x => match x with | Msg.walkFail _ _ => true | _ => false) = [] := by
    rw [List.filter_eq_nil_iff]
    intro x hx
    have := foldMsgs_entryMsg root ex entries (flattenTree tree "") x hx
    cases x <;> simp_all [entryMsg]
  refine ⟨rfl, rfl, ?_, ?_⟩
  · rw [List.filter_append, h1]
    rfl
  · intro r ps hmem
    rcases List.mem_append.1 hmem with h | h
    · have := foldMsgs_entryMsg root ex entries (flattenTree tree "") _ h
      simp [entryMsg] at this
    · simp at h

/-- C3: when the walk succeeds and no per-entry discrepancy was recorded but
expectations remain unconsumed, the verdict is failure with exactly one
aggregated message enumerating every leftover path, in either mode. -/
theorem leftover_single_aggregate (tree : List FileNode) (root : String) (ex : Bool)
    (entries : List (String × Nat))
    (hclean : (entries.foldl (visitEntry root ex) ⟨flattenTree tree "", true, []⟩).msgs = [])
    (hleft : (entries.foldl (visitEntry root ex) ⟨flattenTree tree "", true, []⟩).exps ≠ []) :
    assertTreeModel tree root ex entries none =
      (false,
       [Msg.leftover root
         ((entries.foldl (visitEntry root ex) ⟨flattenTree tree "", true, []⟩).exps.map
           (·.1))]) := by
  rw [foldVisit_eq] at hclean hleft ⊢
  simp only [List.nil_append] at hclean
  unfold assertTreeModel
  rw [foldVisit_eq]
  simp only [hclean, List.isEmpty_nil, Bool.and_true, Bool.true_and, Bool.not_true,
    failSt, List.nil_append]
  simp only at hleft
  rw [if_neg (by simp), if_neg (by simpa [List.isEmpty_iff] using hleft)]

/-- Witness for `leftover_single_aggregate`. -/
theorem leftover_single_aggregate_witness :
    assertTreeModel [.mk "missing.txt" [] [] false] "root" false [] none =
      (false, [Msg.leftover "root" ["missing.txt"]]) :=
  leftover_single_aggregate [.mk "missing.txt" [] [] false] "root" false []
    (by decide) (by decide)

/-! ### Per-entry claims -/

/-- C9: a found entry whose kind agrees is consumed from the expectation map
(whatever its tag checks say); a kind mismatch leaves the map unchanged. -/
theorem matched_entry_consumed (root : String) (ex : Bool) (s : MState)
    (e : String × Nat) (exp : FileNode)
    (hroot : e.1 ≠ root)
    (hfound : mapGet s.exps (relOf root e) = some exp) :
    (exp.isDir = isDirMode e.2 →
      (visitEntry root ex s e).exps = mapDel s.exps (relOf root e)) ∧
    (exp.isDir ≠ isDirMode e.2 →
      (visitEntry root ex s e).exps = s.exps) := by
  rw [visitEntry_eq]
  simp only
  unfold expsStep
  rw [if_neg hroot, hfound]
  constructor
  · intro hk
    have h1 : (exp.isDir && !isDirMode e.2) = false := by
      rw [hk]; cases isDirMode e.2 <;> simp
    have h2 : (!exp.isDir && isDirMode e.2) = false := by
      rw [hk]; cases isDirMode e.2 <;> simp
    simp [h1, h2]
  · intro hk
    cases hd : exp.isDir <;> cases ha : isDirMode e.2 <;> simp_all

/-- Witness for `matched_entry_consumed`: the path is consumed even though the
`perm` tag mismatches. -/
theorem matched_entry_consumed_witness :
    (visitEntry "root" true
        ⟨[("a.txt", FileNode.mk "a.txt" [("perm", 511)] [] false)], true, []⟩
        ("root/a.txt", 420)).exps =
      mapDel [("a.txt", FileNode.mk "a.txt" [("perm", 511)] [] false)]
        (relOf "root" ("root/a.txt", 420)) :=
  (matched_entry_consumed "root" true
      ⟨[("a.txt", FileNode.mk "a.txt" [("perm", 511)] [] false)], true, []⟩
      ("root/a.txt", 420) (FileNode.mk "a.txt" [("perm", 511)] [] false)
      (by decide) (by decide)).1 (by decide)

/-- C5: with a `perm` tag set and the kind agreeing, the permission check
passes exactly when the tag value equals the actual mode masked to
`os.ModePerm`; a mismatch records exactly one permission message carrying both
values rendered in octal. -/
theorem perm_tag_comparison (root : String) (ex : Bool) (s : MState)
    (e : String × Nat) (exp : FileNode) (pv : Nat)
    (hroot : e.1 ≠ root)
    (hfound : mapGet s.exps (relOf root e) = some exp)
    (hkind : exp.isDir = isDirMode e.2)
    (hperm : tagsPerm exp.tags = some pv) :
    ∃ other : List Msg, (∀ x ∈ other, ∀ p a b, x ≠ Msg.permMismatch p a b) ∧
      (visitEntry root ex s e).msgs =
        s.msgs ++ other ++
          (if pv = e.2 &&& MODE_PERM then []
           else [Msg.permMismatch e.1 (permOctal (e.2 &&& MODE_PERM)) (permOctal pv)]) := by
  rw [visitEntry_eq]
  simp only
  unfold stepMsgs
  rw [if_neg hroot, hfound]
  have h1 : (exp.isDir && !isDirMode e.2) = false := by
    rw [hkind]; cases isDirMode e.2 <;> simp
  have h2 : (!exp.isDir && isDirMode e.2) = false := by
    rw [hkind]; cases isDirMode e.2 <;> simp
  simp only [h1, h2, Bool.false_eq_true, if_false, hperm]
  refine ⟨(match tagsMode exp.tags with
    | some mv =>
      if fileModeToString mv ≠ fileModeToString e.2 then
        [Msg.modeMismatch e.1 (fileModeToString e.2) (fileModeToString mv)]
      else []
    | none => []), ?_, ?_⟩
  · intro x hx p a b
    rcases htm : tagsMode exp.tags with _ | mv <;> rw [htm] at hx
    · simp at hx
    · split at hx <;> simp at hx <;> simp [hx]
  · by_cases hp : pv = e.2 &&& MODE_PERM <;> simp [hp, List.append_assoc]

/-- Witness for `perm_tag_comparison` (`0644` expected vs `0755` actual). -/
theorem perm_tag_comparison_witness :
    ∃ other : List Msg, (∀ x ∈ other, ∀ p a b, x ≠ Msg.permMismatch p a b) ∧
      (visitEntry "root" true
          ⟨[("a.txt", FileNode.mk "a.txt" [("perm", 420)] [] false)], true, []⟩
          ("root/a.txt", 493)).msgs =
        [] ++ other ++
          (if 420 = 493 &&& MODE_PERM then []
           else [Msg.permMismatch "root/a.txt" (permOctal (493 &&& MODE_PERM))
              (permOctal 420)]) :=
  perm_tag_comparison "root" true
    ⟨[("a.txt", FileNode.mk "a.txt" [("perm", 420)] [] false)], true, []⟩
    ("root/a.txt", 493) (FileNode.mk "a.txt" [("perm", 420)] [] false) 420
    (by decide) (by decide) (by decide) (by decide)

/-! ### Flag-mask lemmas for the mode check -/

theorem land_flagMask_eval (m : Nat) (b : Nat) (hb : FLAG_MASK &&& b = b) :
    (m &&& FLAG_MASK) &&& b = m &&& b := by
  rw [Nat.land_assoc, hb]

/-- `fileModeToString` depends only on the thirteen named flag bits. -/
theorem fileModeToString_flagMask (m : Nat) :
    fileModeToString m = fileModeToString (m &&& FLAG_MASK) := by
  unfold fileModeToString fileModeToStringOn
  have : fileModeNamesList.filter (fun p => m &&& p.1 != 0) =
      fileModeNamesList.filter (fun p => (m &&& FLAG_MASK) &&& p.1 != 0) := by
    apply List.filter_congr
    intro x hx
    fin_cases hx <;>
      rw [land_flagMask_eval m _ (by decide)]
  rw [this]

theorem fileModeToString_ext (m1 m2 : Nat) (h : m1 &&& FLAG_MASK = m2 &&& FLAG_MASK) :
    fileModeToString m1 = fileModeToString m2 := by
  rw [fileModeToString_flagMask m1, fileModeToString_flagMask m2, h]

theorem isDirMode_ext (m1 m2 : Nat) (h : m1 &&& FLAG_MASK = m2 &&& FLAG_MASK) :
    isDirMode m1 = isDirMode m2 := by
  unfold isDirMode
  have hm : ∀ m : Nat, m &&& MODE_DIR = (m &&& FLAG_MASK) &&& MODE_DIR := fun m => by
    rw [land_flagMask_eval m MODE_DIR (by decide)]
  rw [hm m1, hm m2, h]

/-- C10: the symbolic mode rendering is insensitive to the bits outside the
thirteen named flag bits, hence the `mode`-tag equality check never changes
when only permission bits change on either side. -/
theorem mode_check_flag_bits_only :
    (∀ m : Nat, fileModeToString m = fileModeToString (m &&& FLAG_MASK)) ∧
    (∀ a b a2 b2 : Nat, a2 &&& FLAG_MASK = a &&& FLAG_MASK →
      b2 &&& FLAG_MASK = b &&& FLAG_MASK →
      ((fileModeToString a2 = fileModeToString b2) ↔
        (fileModeToString a = fileModeToString b))) := by
  refine ⟨fileModeToString_flagMask, ?_⟩
  intro a b a2 b2 ha hb
  rw [fileModeToString_ext a2 a ha, fileModeToString_ext b2 b hb]

/-- Witness for `mode_check_flag_bits_only`: changing only permission bits
(`0755` vs `0644` on both sides of a `Dir|Sticky` mode) leaves the check's
outcome unchanged. -/
theorem mode_check_flag_bits_only_witness :
    (fileModeToString (MODE_DIR + MODE_STICKY + 493) =
        fileModeToString (MODE_DIR + 511)) ↔
      (fileModeToString (MODE_DIR + MODE_STICKY + 420) =
        fileModeToString (MODE_DIR + 420)) :=
  mode_check_flag_bits_only.2 (MODE_DIR + MODE_STICKY + 420) (MODE_DIR + 420)
    (MODE_DIR + MODE_STICKY + 493) (MODE_DIR + 511) (by decide) (by decide)

/-- C6: an absent tag constrains nothing.  With both tags absent and the kind
agreeing, the entry matches (no message, the path is consumed); with no `perm`
tag the outcome ignores everything outside the flag bits; with no `mode` tag
the outcome ignores everything except the permission bits and the directory
bit. -/
theorem absent_tags_unconstrained (root : String) (ex : Bool) (s : MState)
    (e : String × Nat) (exp : FileNode)
    (hroot : e.1 ≠ root)
    (hfound : mapGet s.exps (relOf root e) = some exp) :
    (exp.isDir = isDirMode e.2 → tagsMode exp.tags = none → tagsPerm exp.tags = none →
      visitEntry root ex s e = ⟨mapDel s.exps (relOf root e), s.result, s.msgs⟩) ∧
    (tagsPerm exp.tags = none → ∀ m1 m2 : Nat, m1 &&& FLAG_MASK = m2 &&& FLAG_MASK →
      visitEntry root ex s (e.1, m1) = visitEntry root ex s (e.1, m2)) ∧
    (tagsMode exp.tags = none → ∀ m1 m2 : Nat, m1 &&& MODE_PERM = m2 &&& MODE_PERM →
      isDirMode m1 = isDirMode m2 →
      visitEntry root ex s (e.1, m1) = visitEntry root ex s (e.1, m2)) := by
  refine ⟨?_, ?_, ?_⟩
  · intro hkind hm hp
    rw [visitEntry_eq]
    have h1 : (exp.isDir && !isDirMode e.2) = false := by
      rw [hkind]; cases isDirMode e.2 <;> simp
    have h2 : (!exp.isDir && isDirMode e.2) = false := by
      rw [hkind]; cases isDirMode e.2 <;> simp
    have hmsgs : stepMsgs root ex s.exps e = [] := by
      unfold stepMsgs
      rw [if_neg hroot, hfound]
      simp [h1, h2, hm, hp]
    have hexps : expsStep root s.exps e = mapDel s.exps (relOf root e) := by
      unfold expsStep
      rw [if_neg hroot, hfound]
      simp [h1, h2]
    rw [hmsgs, hexps]
    simp
  · intro hp m1 m2 hmask
    rw [visitEntry_eq, visitEntry_eq]
    have hdir := isDirMode_ext m1 m2 hmask
    have hfts := fileModeToString_ext m1 m2 hmask
    have hr1 : relOf root (e.1, m1) = relOf root e := rfl
    have hr2 : relOf root (e.1, m2) = relOf root e := rfl
    have hmsgs : stepMsgs root ex s.exps (e.1, m1) = stepMsgs root ex s.exps (e.1, m2) := by
      unfold stepMsgs
      rw [if_neg hroot, if_neg hroot, hr1, hr2, hfound]
      simp only [hdir, hfts, hp]
    have hexps : expsStep root s.exps (e.1, m1) = expsStep root s.exps (e.1, m2) := by
      unfold expsStep
      rw [if_neg hroot, if_neg hroot, hr1, hr2, hfound]
      simp only [hdir]
    rw [hmsgs, hexps]
  · intro hm m1 m2 hperm hdir
    rw [visitEntry_eq, visitEntry_eq]
    have hr1 : relOf root (e.1, m1) = relOf root e := rfl
    have hr2 : relOf root (e.1, m2) = relOf root e := rfl
    have hmsgs : stepMsgs root ex s.exps (e.1, m1) = stepMsgs root ex s.exps (e.1, m2) := by
      unfold stepMsgs
      rw [if_neg hroot, if_neg hroot, hr1, hr2, hfound]
      simp only [hdir, hm, hperm]
    have hexps : expsStep root s.exps (e.1, m1) = expsStep root s.exps (e.1, m2) := by
      unfold expsStep
      rw [if_neg hroot, if_neg hroot, hr1, hr2, hfound]
      simp only [hdir]
    rw [hmsgs, hexps]

/-- Witness for `absent_tags_unconstrained`: a tagless file node matches a
file with any permission bits. -/
theorem absent_tags_unconstrained_witness :
    visitEntry "root" true ⟨[("a.txt", FileNode.mk "a.txt" [] [] false)], true, []⟩
        ("root/a.txt", 493) =
      ⟨mapDel [("a.txt", FileNode.mk "a.txt" [] [] false)]
        (relOf "root" ("root/a.txt", 493)), true, []⟩ :=
  (absent_tags_unconstrained "root" true
      ⟨[("a.txt", FileNode.mk "a.txt" [] [] false)], true, []⟩
      ("root/a.txt", 493) (FileNode.mk "a.txt" [] [] false)
      (by decide) (by decide)).1 (by decide) (by decide) (by decide)

/-! ### Rendering determinism (C8) -/

theorem sortBy_id_eq_of_perm (l1 l2 : List String) (hp : List.Perm l1 l2) :
    sortBy id l1 = sortBy id l2 := by
  have h1 : (sortBy id l1).Pairwise (· ≤ ·) := by
    have := sortBy_sorted id l1
    simpa [id] using this
  have h2 : (sortBy id l2).Pairwise (· ≤ ·) := by
    have := sortBy_sorted id l2
    simpa [id] using this
  exact List.eq_of_perm_of_sorted
    (((sortBy_perm id l1).trans hp).trans (sortBy_perm id l2).symm) h1 h2

/-- The digit of `octDigit` parses back to its value. -/
theorem digitVal_octDigit (n : Nat) (h : n < 8) : digitVal 8 (octDigit n) = some n := by
  unfold digitVal octDigit
  interval_cases n <;> decide

theorem octRepAux_fold (fuel : Nat) :
    ∀ n acc, n ≤ fuel →
      List.foldlM (fun acc c => (digitVal 8 c).map (fun d => acc * 8 + d)) acc
          (octRepAux fuel n) =
        some (acc * 8 ^ (octRepAux fuel n).length + n) := by
  induction fuel with
  | zero =>
    intro n acc hn
    have : n = 0 := Nat.le_zero.1 hn
    subst this
    simp [octRepAux, digitVal_octDigit 0 (by omega), List.foldlM]
  | succ fuel ih =>
    intro n acc hn
    unfold octRepAux
    by_cases h8 : n < 8
    · simp [h8, digitVal_octDigit n h8, List.foldlM]
    · rw [if_neg h8]
      rw [List.foldlM_append]
      have hdiv : n / 8 ≤ fuel := by
        have : n / 8 < n := Nat.div_lt_self (by omega) (by omega)
        omega
      rw [ih (n / 8) acc hdiv]
      have hm8 : n % 8 < 8 := Nat.mod_lt _ (by omega)
      simp only [Option.bind_eq_bind, Option.some_bind, List.foldlM,
        digitVal_octDigit (n % 8) hm8, Option.map_some]
      rw [List.length_append]
      simp only [List.length_cons, List.length_nil]
      rw [pow_succ, ← Nat.mul_assoc, Nat.add_mul]
      simp only [Option.map_some', Option.some_bind, Option.pure_def]
      congr 1
      omega

/-- `0%o` rendering of a value below `2^32` parses back with
`strconv.ParseUint(_, 8, 32)`. -/
theorem parseUintGo_permOctal (v : Nat) (hv : v < 2 ^ 32) :
    parseUintGo (permOctal v) 8 = some v := by
  unfold parseUintGo permOctal
  have hdata : ("0" ++ octRep v).data = '0' :: octRepAux v v := by
    simp [octRep, String.data_append]
  rw [hdata]
  have h0 : digitVal 8 '0' = some 0 := by decide
  simp only [List.foldlM, h0, Option.map_some', Option.some_bind, reduceCtorEq,
    if_false, Option.bind_eq_bind]
  norm_num
  rw [octRepAux_fold v v 0 (le_refl v)]
  have hv2 : v < 4294967296 := lt_of_lt_of_le hv (by norm_num)
  simp [hv2]

/-- C8: the symbolic rendering is the set flag-bit names, sorted ascending,
joined with `"|"`, independently of the iteration order of the
`fileModeNames` table; the `perm` rendering is the zero-prefixed octal of the
value (it parses back to the same number in base 8). -/
theorem rendering_deterministic :
    (∀ table m, List.Perm table fileModeNamesList →
      fileModeToStringOn table m = fileModeToString m) ∧
    (∀ m : Nat, ∃ names : List String,
      List.Perm names ((fileModeNamesList.filter (fun p => m &&& p.1 != 0)).map (·.2)) ∧
      names.Pairwise (· ≤ ·) ∧
      fileModeToString m = joinSep "|" names) ∧
    (∀ v : Nat, parseUintGo (permOctal (v &&& MODE_PERM)) 8 = some (v &&& MODE_PERM)) := by
  refine ⟨?_, ?_, ?_⟩
  · intro table m hp
    unfold fileModeToString fileModeToStringOn
    rw [sortBy_id_eq_of_perm _ _ ((hp.filter _).map _)]
  · intro m
    refine ⟨sortBy id ((fileModeNamesList.filter (fun p => m &&& p.1 != 0)).map (·.2)),
      sortBy_perm _ _, ?_, ?_⟩
    · have := sortBy_sorted id ((fileModeNamesList.filter (fun p => m &&& p.1 != 0)).map (·.2))
      simpa [id] using this
    · rfl
  · intro v
    apply parseUintGo_permOctal
    have : v &&& MODE_PERM ≤ MODE_PERM := Nat.and_le_right
    unfold MODE_PERM at this ⊢
    omega

/-- Witness for `rendering_deterministic`: a reordered table renders the same
string, and `0644` parses back. -/
theorem rendering_deterministic_witness :
    fileModeToStringOn
        [(MODE_STICKY, "Sticky"), (MODE_APPEND, "Append"), (MODE_EXCLUSIVE, "Exclusive"),
         (MODE_TEMPORARY, "Temporary"), (MODE_SYMLINK, "Symlink"), (MODE_DEVICE, "Device"),
         (MODE_NAMED_PIPE, "NamedPipe"), (MODE_SOCKET, "Socket"), (MODE_SETUID, "Setuid"),
         (MODE_SETGID, "Setgid"), (MODE_CHAR_DEVICE, "CharDevice"), (MODE_DIR, "Dir"),
         (MODE_IRREGULAR, "Irregular")] (MODE_DIR + MODE_STICKY) =
      fileModeToString (MODE_DIR + MODE_STICKY) ∧
    parseUintGo (permOctal (420 &&& MODE_PERM)) 8 = some (420 &&& MODE_PERM) :=
  ⟨rendering_deterministic.1 _ (MODE_DIR + MODE_STICKY) (by decide),
   rendering_deterministic.2.2 420⟩

/-! ### Flatten versus its specification (C7)

`flattenSpecTree` is a second definition following the spec's words ("a
mapping from `rootPrefix/name` and, recursively, every descendant path to the
corresponding node, including intermediate directory nodes"), to be compared
with the `flattenTree` translated from the code. -/

mutual

/-- Spec-side flatten of one node: its own path, then every descendant path. -/
def flattenSpecNode (n : FileNode) (root : String) : PathMap :=
  match n with
  | .mk name _tags children _isDir =>
    (pathJoin root name, n) :: flattenSpecTree children (pathJoin root name)

/-- Spec-side flatten of a tree: all nodes' paths, in order. -/
def flattenSpecTree (t : List FileNode) (root : String) : PathMap :=
  match t with
  | [] => []
  | n :: rest => flattenSpecNode n root ++ flattenSpecTree rest root

end

mutual

/-- Well-formedness for the flatten correspondence: every name is nonempty
and slash-free (so distinct nodes get distinct paths). -/
def c7okNode : FileNode → Bool
  | .mk name _tags children _isDir =>
    name != "" && !(name.data.contains '/') && c7okTree children

/-- Tree-level well-formedness: node names at each level pairwise distinct
(Go's `FileTree` map guarantees per-level uniqueness of names for trees built
by the parser, which keys nodes by name). -/
def c7okTree : List FileNode → Bool
  | [] => true
  | n :: rest =>
    c7okNode n && rest.all (fun m => m.name != n.name) && c7okTree rest

end

/-- A path tail is empty or starts a further segment. -/
def keyTail (rest : List Char) : Prop := rest = [] ∨ ∃ r, rest = '/' :: r

theorem segEq (a : List Char) :
    ∀ (b ra rb : List Char), '/' ∉ a → '/' ∉ b → keyTail ra → keyTail rb →
      a ++ ra = b ++ rb → a = b ∧ ra = rb := by
  induction a with
  | nil =>
    intro b ra rb _ha hb hra _hrb heq
    cases b with
    | nil => exact ⟨rfl, heq⟩
    | cons d bs =>
      exfalso
      rcases hra with rfl | ⟨r, rfl⟩
      · simp at heq
      · simp only [List.nil_append, List.cons_append, List.cons.injEq] at heq
        exact hb (heq.1 ▸ List.mem_cons_self d bs)
  | cons c as ih =>
    intro b ra rb ha hb hra hrb heq
    cases b with
    | nil =>
      exfalso
      rcases hrb with rfl | ⟨r, rfl⟩
      · simp at heq
      · simp only [List.cons_append, List.nil_append, List.cons.injEq] at heq
        exact ha (heq.1 ▸ List.mem_cons_self c as)
    | cons d bs =>
      simp only [List.cons_append, List.cons.injEq] at heq
      obtain ⟨rfl, heq2⟩ := heq
      have := ih bs ra rb (fun h => ha (List.mem_cons_of_mem c h))
        (fun h => hb (List.mem_cons_of_mem c h)) hra hrb heq2
      exact ⟨by rw [this.1], this.2⟩

theorem string_data_inj (a b : String) (h : a.data = b.data) : a = b :=
  congrArg String.mk h

theorem pathJoin_data (root name : String) (hroot : root ≠ "") :
    (pathJoin root name).data = root.data ++ '/' :: name.data := by
  unfold pathJoin
  rw [if_neg hroot]
  simp [String.data_append]

theorem pathJoin_seg_inj (root n1 n2 : String) (r1 r2 : List Char)
    (h1 : '/' ∉ n1.data) (h2 : '/' ∉ n2.data)
    (hr1 : keyTail r1) (hr2 : keyTail r2)
    (heq : (pathJoin root n1).data ++ r1 = (pathJoin root n2).data ++ r2) :
    n1 = n2 ∧ r1 = r2 := by
  by_cases hroot : root = ""
  · subst hroot
    have e1 : pathJoin "" n1 = n1 := by unfold pathJoin; simp
    have e2 : pathJoin "" n2 = n2 := by unfold pathJoin; simp
    rw [e1, e2] at heq
    have := segEq n1.data n2.data r1 r2 h1 h2 hr1 hr2 heq
    exact ⟨string_data_inj _ _ this.1, this.2⟩
  · rw [pathJoin_data root n1 hroot, pathJoin_data root n2 hroot] at heq
    simp only [List.append_assoc, List.cons_append] at heq
    have hcore := List.append_cancel_left heq
    simp only [List.cons.injEq, true_and] at hcore
    have := segEq n1.data n2.data r1 r2 h1 h2 hr1 hr2 hcore
    exact ⟨string_data_inj _ _ this.1, this.2⟩

theorem pathJoin_ne_empty (root name : String) (hname : name ≠ "") :
    pathJoin root name ≠ "" := by
  unfold pathJoin
  by_cases hroot : root = ""
  · simpa [hroot] using hname
  · rw [if_neg hroot]
    intro hcontra
    have : (root ++ "/" ++ name).data = [] := by rw [hcontra]
    simp [String.data_append] at this

theorem c7okNode_parts (name : String) (tags : TagMap) (children : List FileNode)
    (isDir : Bool) (h : c7okNode (.mk name tags children isDir) = true) :
    name ≠ "" ∧ '/' ∉ name.data ∧ c7okTree children = true := by
  unfold c7okNode at h
  simp only [Bool.and_eq_true, bne_iff_ne, ne_eq, Bool.not_eq_true'] at h
  refine ⟨h.1.1, ?_, h.2⟩
  have h2 := h.1.2
  simp at h2
  exact h2

theorem c7okTree_parts (n : FileNode) (rest : List FileNode)
    (h : c7okTree (n :: rest) = true) :
    c7okNode n = true ∧ (∀ m ∈ rest, m.name ≠ n.name) ∧ c7okTree rest = true := by
  unfold c7okTree at h
  simp only [Bool.and_eq_true, List.all_eq_true, bne_iff_ne, ne_eq] at h
  exact ⟨h.1.1, fun m hm => h.1.2 m hm, h.2⟩

theorem c7okTree_mem (t : List FileNode) (m : FileNode) (h : c7okTree t = true)
    (hm : m ∈ t) : c7okNode m = true := by
  induction t with
  | nil => simp at hm
  | cons n rest ih =>
    obtain ⟨h1, _h2, h3⟩ := c7okTree_parts n rest h
    rcases List.mem_cons.1 hm with rfl | hm'
    · exact h1
    · exact ih h3 hm'

mutual

theorem specNode_shape : ∀ (n : FileNode) (root : String) (kv : String × FileNode),
    c7okNode n = true → kv ∈ flattenSpecNode n root →
    ∃ rest : List Char, kv.1.data = (pathJoin root n.name).data ++ rest ∧ keyTail rest
  | .mk name tags children isDir, root, kv, hok, hmem => by
    obtain ⟨hname, _hsl, hokc⟩ := c7okNode_parts name tags children isDir hok
    rw [show flattenSpecNode (.mk name tags children isDir) root =
        (pathJoin root name, FileNode.mk name tags children isDir) ::
          flattenSpecTree children (pathJoin root name) from rfl] at hmem
    rcases List.mem_cons.1 hmem with rfl | hmem'
    · exact ⟨[], by simp [FileNode.name], Or.inl rfl⟩
    · obtain ⟨c, _hc, rest', hshape, _htail⟩ :=
        specTree_shape children (pathJoin root name) kv hokc hmem'
      have hp : pathJoin root name ≠ "" := pathJoin_ne_empty root name hname
      refine ⟨'/' :: (c.name.data ++ rest'), ?_, Or.inr ⟨_, rfl⟩⟩
      rw [pathJoin_data _ _ hp] at hshape
      simpa [FileNode.name, List.append_assoc] using hshape

theorem specTree_shape : ∀ (t : List FileNode) (root : String) (kv : String × FileNode),
    c7okTree t = true → kv ∈ flattenSpecTree t root →
    ∃ n, n ∈ t ∧ ∃ rest : List Char,
      kv.1.data = (pathJoin root n.name).data ++ rest ∧ keyTail rest
  | [], root, kv, _, hmem => by simp [flattenSpecTree] at hmem
  | n :: rest, root, kv, hok, hmem => by
    obtain ⟨h1, _h2, h3⟩ := c7okTree_parts n rest hok
    unfold flattenSpecTree at hmem
    rcases List.mem_append.1 hmem with hmem' | hmem'
    · obtain ⟨r, hr, ht⟩ := specNode_shape n root kv h1 hmem'
      exact ⟨n, List.mem_cons_self n rest, r, hr, ht⟩
    · obtain ⟨m, hm, r, hr, ht⟩ := specTree_shape rest root kv h3 hmem'
      exact ⟨m, List.mem_cons_of_mem n hm, r, hr, ht⟩

end

theorem specTree_key_ne (children : List FileNode) (p : String)
    (hok : c7okTree children = true) (hp : p ≠ "") :
    ∀ kv ∈ flattenSpecTree children p, p ≠ kv.1 := by
  intro kv hkv heq
  obtain ⟨c, _hc, rest, hshape, _htail⟩ := specTree_shape children p kv hok hkv
  rw [pathJoin_data p c.name hp] at hshape
  rw [← heq] at hshape
  have hlen := congrArg List.length hshape
  simp [List.length_append] at hlen

/-- Keys of the flattened maps of two distinct-named well-formed nodes are
disjoint. -/
theorem specNode_cross_ne (n m : FileNode) (root : String)
    (hn : c7okNode n = true) (hm : c7okNode m = true) (hne : m.name ≠ n.name) :
    ∀ a ∈ flattenSpecNode n root, ∀ b ∈ flattenSpecNode m root, a.1 ≠ b.1 := by
  intro a ha b hb heq
  obtain ⟨ra, hra, hta⟩ := specNode_shape n root a hn ha
  obtain ⟨rb, hrb, htb⟩ := specNode_shape m root b hm hb
  have hsl_n : '/' ∉ n.name.data := by
    cases n with | mk nm tg ch d => exact (c7okNode_parts nm tg ch d hn).2.1
  have hsl_m : '/' ∉ m.name.data := by
    cases m with | mk nm tg ch d => exact (c7okNode_parts nm tg ch d hm).2.1
  rw [heq, hrb] at hra
  have := pathJoin_seg_inj root m.name n.name rb ra hsl_m hsl_n htb hta hra
  exact hne this.1

theorem specNode_tree_disjoint (n : FileNode) (rest : List FileNode) (root : String)
    (hn : c7okNode n = true) (hrest : c7okTree rest = true)
    (hnames : ∀ m ∈ rest, m.name ≠ n.name) :
    ∀ a ∈ flattenSpecNode n root, ∀ b ∈ flattenSpecTree rest root, a.1 ≠ b.1 := by
  intro a ha b hb heq
  obtain ⟨m, hm, rb, hrb, htb⟩ := specTree_shape rest root b hrest hb
  obtain ⟨ra, hra, hta⟩ := specNode_shape n root a hn ha
  have hsl_n : '/' ∉ n.name.data := by
    cases n with | mk nm tg ch d => exact (c7okNode_parts nm tg ch d hn).2.1
  have hmok := c7okTree_mem rest m hrest hm
  have hsl_m : '/' ∉ m.name.data := by
    cases m with | mk nm tg ch d => exact (c7okNode_parts nm tg ch d hmok).2.1
  rw [heq, hrb] at hra
  have := pathJoin_seg_inj root m.name n.name rb ra hsl_m hsl_n htb hta hra
  exact hnames m hm this.1

/-- Pairwise-distinct keys. -/
def keysDistinct (m : PathMap) : Prop := m.Pairwise (fun a b => a.1 ≠ b.1)

mutual

theorem specNode_nodup : ∀ (n : FileNode) (root : String), c7okNode n = true →
    keysDistinct (flattenSpecNode n root)
  | .mk name tags children isDir, root, hok => by
    obtain ⟨hname, _hsl, hokc⟩ := c7okNode_parts name tags children isDir hok
    rw [show flattenSpecNode (.mk name tags children isDir) root =
        (pathJoin root name, FileNode.mk name tags children isDir) ::
          flattenSpecTree children (pathJoin root name) from rfl]
    refine List.pairwise_cons.2 ⟨?_, specTree_nodup children (pathJoin root name) hokc⟩
    intro kv hkv
    exact specTree_key_ne children (pathJoin root name) hokc
      (pathJoin_ne_empty root name hname) kv hkv

theorem specTree_nodup : ∀ (t : List FileNode) (root : String), c7okTree t = true →
    keysDistinct (flattenSpecTree t root)
  | [], _root, _ => List.Pairwise.nil
  | n :: rest, root, hok => by
    obtain ⟨h1, h2, h3⟩ := c7okTree_parts n rest hok
    unfold flattenSpecTree
    rw [keysDistinct, List.pairwise_append]
    exact ⟨specNode_nodup n root h1, specTree_nodup rest root h3,
      fun a ha b hb => specNode_tree_disjoint n rest root h1 h3 h2 a ha b hb⟩

end

theorem mapSet_append_of_new (acc : PathMap) (e : String × FileNode)
    (h : ∀ p ∈ acc, p.1 ≠ e.1) : mapSet acc e = acc ++ [e] := by
  induction acc with
  | nil => rfl
  | cons q t ih =>
    unfold mapSet
    rw [if_neg (h q (List.mem_cons_self q t))]
    rw [ih (fun p hp => h p (List.mem_cons_of_mem q hp))]
    rfl

theorem foldl_mapSet_append (l : PathMap) :
    ∀ acc : PathMap, (∀ p ∈ l, ∀ q ∈ acc, q.1 ≠ p.1) → keysDistinct l →
      List.foldl mapSet acc l = acc ++ l := by
  induction l with
  | nil => intro acc _ _; simp
  | cons e l' ih =>
    intro acc hdisj hnodup
    rw [List.foldl_cons,
      mapSet_append_of_new acc e (fun p hp => hdisj e (List.mem_cons_self e l') p hp)]
    rcases List.pairwise_cons.1 hnodup with ⟨he, hl'⟩
    rw [ih (acc ++ [e]) ?_ hl']
    · simp
    · intro p hp q hq
      rcases List.mem_append.1 hq with hq' | hq'
      · exact hdisj p (List.mem_cons_of_mem e hp) q hq'
      · rcases List.mem_cons.1 hq' with rfl | h0
        · exact he p hp
        · simp at h0

mutual

theorem flattenNode_eq_spec : ∀ (n : FileNode) (root : String), c7okNode n = true →
    flattenNode n root = flattenSpecNode n root
  | .mk name tags children isDir, root, hok => by
    obtain ⟨hname, _hsl, hokc⟩ := c7okNode_parts name tags children isDir hok
    rw [show flattenNode (.mk name tags children isDir) root =
        (flattenTreeAcc children (pathJoin root name) []).foldl mapSet
          [(pathJoin root name, FileNode.mk name tags children isDir)] from rfl]
    rw [flattenTreeAcc_eq_spec children (pathJoin root name) [] hokc (by simp)]
    simp only [List.nil_append]
    rw [foldl_mapSet_append _ _ ?_ (specTree_nodup children (pathJoin root name) hokc)]
    · rfl
    · intro p hp q hq
      rcases List.mem_cons.1 hq with rfl | h0
      · exact specTree_key_ne children (pathJoin root name) hokc
          (pathJoin_ne_empty root name hname) p hp
      · simp at h0

theorem flattenTreeAcc_eq_spec : ∀ (t : List FileNode) (root : String) (acc : PathMap),
    c7okTree t = true → (∀ kv ∈ flattenSpecTree t root, ∀ q ∈ acc, q.1 ≠ kv.1) →
    flattenTreeAcc t root acc = acc ++ flattenSpecTree t root
  | [], root, acc, _, _ => by simp [flattenTreeAcc, flattenSpecTree]
  | n :: rest, root, acc, hok, hdisj => by
    obtain ⟨h1, h2, h3⟩ := c7okTree_parts n rest hok
    rw [show flattenTreeAcc (n :: rest) root acc =
        flattenTreeAcc rest root ((flattenNode n root).foldl mapSet acc) from rfl]
    rw [flattenNode_eq_spec n root h1]
    rw [foldl_mapSet_append _ acc ?_ (specNode_nodup n root h1)]
    · rw [flattenTreeAcc_eq_spec rest root (acc ++ flattenSpecNode n root) h3 ?_]
      · simp [flattenSpecTree, List.append_assoc]
      · intro kv hkv q hq
        rcases List.mem_append.1 hq with hq' | hq'
        · exact hdisj kv
            (by unfold flattenSpecTree; exact List.mem_append.2 (Or.inr hkv)) q hq'
        · exact specNode_tree_disjoint n rest root h1 h3 h2 q hq' kv hkv
    · intro p hp q hq
      exact hdisj p (by unfold flattenSpecTree; exact List.mem_append.2 (Or.inl hp)) q hq

end

/-- C7 (amended) refinement: on trees whose names are nonempty, slash-free
and per-level distinct, `Flatten` produces exactly the spec mapping — one
entry per node of the tree, keyed by the node's joined path (intermediate
directory nodes included), with pairwise-distinct keys. -/
theorem flatten_refines_spec (t : List FileNode) (root : String)
    (h : c7okTree t = true) :
    flattenTree t root = flattenSpecTree t root ∧
      keysDistinct (flattenTree t root) := by
  have heq : flattenTree t root = flattenSpecTree t root := by
    unfold flattenTree
    rw [flattenTreeAcc_eq_spec t root [] h (by simp)]
    simp
  exact ⟨heq, heq ▸ specTree_nodup t root h⟩

/-- Witness for `flatten_refines_spec`. -/
theorem flatten_refines_spec_witness :
    flattenTree [FileNode.mk "a" [] [FileNode.mk "b" [] [] false] true,
        FileNode.mk "c.txt" [] [] false] "x" =
      flattenSpecTree [FileNode.mk "a" [] [FileNode.mk "b" [] [] false] true,
        FileNode.mk "c.txt" [] [] false] "x" :=
  (flatten_refines_spec [FileNode.mk "a" [] [FileNode.mk "b" [] [] false] true,
    FileNode.mk "c.txt" [] [] false] "x" (by decide)).1

/-- Counterexample to C7 as stated: with a slash in a name, two distinct nodes
share the joined path `a/b`, and the flattened map cannot send that key to
both corresponding nodes — the child node `b` is lost. -/
theorem flatten_collision_counterexample :
    ((pathJoin (pathJoin "" "a") "b", FileNode.mk "b" [] [] false) ∈
      flattenSpecTree [FileNode.mk "a" [] [FileNode.mk "b" [] [] false] true,
        FileNode.mk "a/b" [] [] false] "") ∧
    mapGet (flattenTree [FileNode.mk "a" [] [FileNode.mk "b" [] [] false] true,
        FileNode.mk "a/b" [] [] false] "") (pathJoin (pathJoin "" "a") "b") ≠
      some (FileNode.mk "b" [] [] false) := by
  constructor
  · decide
  · decide

/-! ### YAML document model (C1)

The `gopkg.in/yaml.v3` collaborator is external: trees are marshalled by
producing Go values (strings, maps, slices) which the library encodes, and
unmarshalled from `yaml.Node` documents.  The document is modelled as a tree
of scalars (with `null` distinguished — yaml.v3 short-circuits null nodes to
the zero value without invoking custom unmarshallers), sequences, and
mappings (whose `Content` alternates keys and values, modelled as pairs). -/

/-- yaml.v3 node. -/
inductive Yaml where
  | nullv
  | str (s : String)
  | seq (xs : List Yaml)
  | map (es : List (Yaml × Yaml))

/-! ### Go string helpers used by the tree codec -/

/-- Go `strings.Trim(s, " ")`. -/
def trimSpacesGo (s : String) : String :=
  ⟨((s.data.dropWhile (· = ' ')).reverse.dropWhile (· = ' ')).reverse⟩

/-- Character of the `prepareTagsString` cutset `" `+backquote+`'"`. -/
def isCutChar (c : Char) : Bool := c = ' ' || c = '`' || c = '\''

/-- `prepareTagsString` of `tree.go`: Go `strings.Trim(s, " `'")` (strip
spaces, backquotes and single quotes from both ends). -/
def prepareTagsString (s : String) : String :=
  ⟨((s.data.dropWhile isCutChar).reverse.dropWhile isCutChar).reverse⟩

/-- Go `strings.TrimSuffix(s, suf)`. -/
def trimSuffixGo (s suf : String) : String :=
  match dropPre suf.data.reverse s.data.reverse with
  | some r => ⟨r.reverse⟩
  | none => s

/-- Whitespace class of Go's regexp `\s` (`[\t\n\f\r ]`). -/
def isGoWs (c : Char) : Bool :=
  c = '\t' || c = '\n' || c = '\x0c' || c = '\r' || c = ' '

/-! ### The `tagPattern` regular expression

`tagPattern = regexp.MustCompile("\\s*'[^`]+'$")`.  A match is a suffix of
the subject: optional whitespace, a quote, one or more non-backquote
characters, a closing quote at the end of the string.  `FindString` returns
the leftmost match; since every match ends at the end of the string, the
leftmost match corresponds to the earliest feasible opening quote (every
character between two candidate opening quotes is a quote or ordinary text,
never whitespace, so an earlier opening quote always gives an earlier match
start), extended left over the maximal whitespace run.  The scan below walks
the reversed subject: after the mandatory final quote it looks for the
farthest opening quote not separated from the end by a backquote and with at
least one character in between, then takes the whitespace run before it. -/

/-- Reversed-scan worker: `acc` holds the characters consumed so far (in
reversed-subject order), `best` the latest feasible opening-quote split. -/
def tagScan : List Char → List Char → Option (List Char × List Char) →
    Option (List Char × List Char)
  | [], _, best => best
  | c :: cs, acc, best =>
    if c = '`' then best
    else if c = '\'' && !acc.isEmpty then tagScan cs (acc ++ [c]) (some (acc, cs))
    else tagScan cs (acc ++ [c]) best

/-- Reversed `FindString` for `tagPattern`: `rs` is the reversed subject. -/
def tagFindRev (rs : List Char) : Option (List Char) :=
  match rs with
  | '\'' :: rest =>
    (tagScan rest [] none).map (fun p => '\'' :: p.1 ++ '\'' :: p.2.takeWhile isGoWs)
  | _ => none

/-- `tagPattern.FindString` (empty string when there is no match, as in Go). -/
def tagFindString (s : String) : String :=
  match tagFindRev s.data.reverse with
  | some l => ⟨l.reverse⟩
  | none => ""

/-- `tagPattern.MatchString`. -/
def tagMatchString (s : String) : Bool :=
  (tagFindRev s.data.reverse).isSome

/-! ### The `structtag` collaborator

`github.com/fatih/structtag` parses `key:"value"` pairs the same way
`reflect.StructTag` does; the parser below is a faithful transcription of its
`Parse` loop (skip spaces; scan a key of printable characters other than
`:`, `"` and DEL up to a `:"`; scan the quoted value honouring backslash
escapes; unquote; split the value on commas, the first component being the
tag name).  `strconv.Unquote` is modelled for the quote-free, escape-free
values this codec produces: a backslash or a raw newline inside the quotes is
a failure, anything else unquotes to itself. -/

/-- Key characters: printable, not `:`/`"`/DEL (from the structtag scanner). -/
def keyChar (c : Char) : Bool :=
  32 < c.toNat && c ≠ ':' && c ≠ '"' && c.toNat ≠ 127

/-- Scan a quoted value body up to the closing quote, skipping escaped pairs;
returns the body and the remainder after the closing quote. -/
def scanVal : List Char → Option (List Char × List Char)
  | [] => none
  | '"' :: rest => some ([], rest)
  | '\\' :: c :: rest => (scanVal rest).map (fun p => ('\\' :: c :: p.1, p.2))
  | '\\' :: [] => none
  | c :: rest => (scanVal rest).map (fun p => (c :: p.1, p.2))

/-- Modelled from the spec: `strconv.Unquote` on the scanned `"body"`; the
serialiser never emits escapes, so a backslash (or a raw newline, which Go
string literals refuse) is modelled as a failure and any other body unquotes
to itself. -/
def unquoteGo (body : List Char) : Option String :=
  if body.any (fun c => c = '\\' || c = '\n') then none else some ⟨body⟩

/-- `structtag.Parse`, on the character list of the tag string, fuelled: one
unit of fuel is spent per parsed pair, and the wrapper `stParse` supplies the
input length, an upper bound on the number of pairs, so the out-of-fuel
branch is unreachable.  Returns the `(key, name)` pairs in order. -/
def stParseAux : Nat → List Char → Except String (List (String × String))
  | 0, cs =>
    if cs.dropWhile (fun c => c = ' ') = [] then .ok []
    else .error "out of fuel"
  | fuel + 1, cs =>
    if cs.dropWhile (fun c => c = ' ') = [] then .ok []
    else
      if (cs.dropWhile (fun c => c = ' ')).takeWhile keyChar = [] then
        .error "bad syntax for struct tag key"
      else
        match (cs.dropWhile (fun c => c = ' ')).dropWhile keyChar with
        | ':' :: '"' :: vrest =>
          match scanVal vrest with
          | some p =>
            match unquoteGo p.1 with
            | some value =>
              (stParseAux fuel p.2).map
                (fun tl => (⟨(cs.dropWhile (fun c => c = ' ')).takeWhile keyChar⟩,
                  ⟨value.data.takeWhile (fun c => c != ',')⟩) :: tl)
            | none => .error "bad syntax for struct tag value"
          | none => .error "bad syntax for struct tag value"
        | ':' :: [] => .error "bad syntax for struct tag pair"
        | [] => .error "bad syntax for struct tag pair"
        | ':' :: _ :: _ => .error "bad syntax for struct tag value"
        | _ :: _ => .error "bad syntax for struct tag pair"

/-- `structtag.Parse`. -/
def stParse (cs : List Char) : Except String (List (String × String)) :=
  stParseAux cs.length cs

/-- `unmarshalTags` of `tree.go`: parse the struct-tag string, then parse
each tag's value as a file mode, collecting them into the tag map (later
entries overwrite earlier ones with the same key, as in a Go map). -/
def unmarshalTags (s : String) : Except String TagMap := do
  let pairs ← stParse s.data
  pairs.foldlM
    (fun t kv =>
      match parseTag kv.2 with
      | .ok v => .ok (tagsSet t kv.1 v)
      | .error _ => .error ("invalid file mode in \"" ++ kv.1 ++ "\" tag"))
    []

/-- `unmarshalFileWithTags` of `tree.go`: split the scalar into the raw tag
block (the `tagPattern` match) and the file name, parse the tag block
stripped of its quotes. -/
def unmarshalFileWithTags (s : String) : Except String FileNode := do
  let rawTags := tagFindString s
  let fileName := trimSuffixGo s rawTags
  if fileName.data.isEmpty then
    .error "file name is empty"
  else do
    let tags ← unmarshalTags (prepareTagsString rawTags)
    .ok (.mk fileName tags [] false)

/-- `unmarshalFile` of `tree.go`: trim spaces; a trailing tag block means a
tagged file; an empty name is an error; otherwise a plain file node (the
tagged branch re-reads the raw scalar, as the Go code does via
`value.Value`). -/
def unmarshalFile (s : String) : Except String FileNode :=
  let t := trimSpacesGo s
  if tagMatchString t then unmarshalFileWithTags s
  else if t.data.isEmpty then .error "file name is empty"
  else .ok (.mk t [] [] false)

/-- Decode a yaml node into a Go `string` (`value.Decode(&s)`): scalars
decode to their text, null to the zero value, anything else is a type
error. -/
def decodeStrYaml : Yaml → Except String String
  | .str s => .ok s
  | .nullv => .ok ""
  | _ => .error "cannot unmarshal into string"

/-- Go map write keyed by node name (`(*t)[n.Name] = n`). -/
def nodeSet (t : List FileNode) (n : FileNode) : List FileNode :=
  match t with
  | [] => [n]
  | m :: rest => if m.name = n.name then n :: rest else m :: nodeSet rest n

mutual

/-- `FileNode.UnmarshalYAML` of `tree.go`: scalars are files, mappings are
folders, anything else is an invalid-format error. -/
def unmarshalNode : Yaml → Except String FileNode
  | .str s => unmarshalFile s
  | .nullv => unmarshalFile ""
  | .map es => unmarshalFolder es
  | .seq _ => .error "invalid file tree format, expected !!str or !!map"

/-- `unmarshalFolder` of `tree.go`: the mapping must have exactly one
key/value pair (`len(value.Content) != 2` otherwise); the key is decoded as a
(possibly tagged) file, the value as the children tree; the node becomes a
directory. -/
def unmarshalFolder : List (Yaml × Yaml) → Except String FileNode
  | [(k, v)] => do
    let base ← (do
      let s ← decodeStrYaml k
      unmarshalFile s)
    let dt ← decodeFileTree v
    .ok (.mk base.name base.tags dt true)
  | _ => .error "invalid file tree format"

/-- `FileTree.UnmarshalYAML` of `tree.go` (also the behaviour of
`value.Decode(&dt)` for a `FileTree` target): null yields the zero (empty)
tree without invoking the unmarshaller; a sequence decodes its elements as
`[]FileNode` (null elements becoming zero nodes, again without invoking the
unmarshaller) and keys the result map by node name (later nodes with the same
name overwrite earlier ones); anything else is a type error. -/
def decodeFileTree : Yaml → Except String (List FileNode)
  | .nullv => .ok []
  | .seq xs => (decodeNodeList xs).map (fun l => l.foldl nodeSet [])
  | _ => .error "cannot unmarshal into []FileNode"

/-- Element-wise decoding of a `[]FileNode` sequence. -/
def decodeNodeList : List Yaml → Except String (List FileNode)
  | [] => .ok []
  | y :: ys => do
    let n ← (match y with
      | .nullv => .ok (FileNode.mk "" [] [] false)
      | _ => unmarshalNode y)
    let rest ← decodeNodeList ys
    .ok (n :: rest)

end

/-- Entry point `yaml.Unmarshal(data, &ft)` for a `FileTree` target. -/
def yamlDecodeFileTree (y : Yaml) : Except String (List FileNode) :=
  decodeFileTree y

/-- The scalar text of a node in the serialisation: the name, followed by the
quoted tag block when the node has tags (`FileNode.MarshalYAML`). -/
def nodeLabel (n : FileNode) : String :=
  if n.tags.isEmpty then n.name else n.name ++ " '" ++ tagsString n.tags ++ "'"

/-- `FileNode.MarshalYAML` composed with the yaml encoder: files become
scalars, folders one-pair mappings from the label scalar to the marshalled
children (an empty `FileTree` marshals to an empty mapping, a nonempty one to
the nodes sorted ascending by name — `FileTree.MarshalYAML`). -/
def marshalNode (n : FileNode) : Yaml :=
  match n with
  | .mk name tags children isDir =>
    if !isDir then .str (if tags.isEmpty then name else name ++ " '" ++ tagsString tags ++ "'")
    else
      .map [(.str (if tags.isEmpty then name else name ++ " '" ++ tagsString tags ++ "'"),
        if children.isEmpty then .map []
        else .seq ((sortBy FileNode.name children).attach.map
          (fun c => marshalNode c.1)))]
termination_by sizeOf n
decreasing_by
  have hmem := (sortBy_perm FileNode.name _).mem_iff.1 c.2
  have := List.sizeOf_lt_of_mem hmem
  simp_wf
  omega

/-- `FileTree.MarshalYAML` composed with the yaml encoder. -/
def marshalTree (t : List FileNode) : Yaml :=
  if t.isEmpty then .map []
  else .seq ((sortBy FileNode.name t).map marshalNode)

/-! ### Round trip (C1): well-formedness and counterexample -/

/-- A name that survives the scalar encoding: nonempty, no single quote (the
tag pattern would misparse it), no leading space (`strings.Trim` would strip
it), no trailing regexp whitespace (the tag pattern would absorb it). -/
def goodName (s : String) : Bool :=
  match s.data.head?, s.data.getLast? with
  | some c1, some c2 => !s.data.contains '\'' && c1 != ' ' && !isGoWs c2
  | _, _ => false

/-- A `mode`/`type` value that survives the symbolic rendering: nonzero and
composed solely of the thirteen named flag bits. -/
def modeValOk (v : Nat) : Bool := v != 0 && v &&& FLAG_MASK == v

/-- A `perm` value that survives the octal rendering: permission bits only. -/
def permValOk (v : Nat) : Bool := v &&& MODE_PERM == v

/-- Canonical association list of a tag map: `mode`, `type`, `perm`, in the
order the serialiser emits them.  A Go map is unordered; the canonical list
is its chosen representative. -/
def canonTags (t : TagMap) : TagMap :=
  ((tagsMode t).map (fun v => ("mode", v))).toList ++
  ((tagsType t).map (fun v => ("type", v))).toList ++
  ((tagsPerm t).map (fun v => ("perm", v))).toList

/-- Tag map that survives the codec: canonical (keys among
`mode`/`type`/`perm`, in emission order) with codec-safe values. -/
def tagsOk (t : TagMap) : Bool :=
  decide (t = canonTags t) &&
  ((tagsMode t).all modeValOk) && ((tagsType t).all modeValOk) &&
  ((tagsPerm t).all permValOk)

mutual

/-- Serialisation-safe node: good name, codec-safe canonical tags, a file has
no children, a directory has a nonempty well-formed children tree (the empty
`FileTree` marshals to `{}`, which does not decode back into `[]FileNode`). -/
def c1okNode (n : FileNode) : Bool :=
  match n with
  | .mk name tags children isDir =>
    goodName name && tagsOk tags &&
    (if isDir then !children.isEmpty && c1okTree children else children.isEmpty)

/-- Serialisation-safe tree: nodes safe and names strictly ascending (the
canonical representative of the unordered Go map; names in particular are
pairwise distinct per level). -/
def c1okTree : List FileNode → Bool
  | [] => true
  | n :: rest =>
    c1okNode n && rest.all (fun m => decide (n.name < m.name)) && c1okTree rest

end

/-- Serialisation-safe root tree: nonempty (the empty tree marshals to `{}`,
which fails to decode) and well-formed. -/
def c1okRoot (t : List FileNode) : Bool := !t.isEmpty && c1okTree t

/-- Counterexample to C1 as stated: the empty tree (trivially free of
duplicate names) marshals to an empty yaml mapping, which the tree decoder
rejects, so the round trip does not even produce a tree. -/
theorem yaml_round_trip_counterexample :
    ¬ ∃ T' : List FileNode,
        yamlDecodeFileTree (marshalTree ([] : List FileNode)) = .ok T' ∧
        ∀ p, mapGet (flattenTree T' "") p =
          mapGet (flattenTree ([] : List FileNode) "") p := by
  intro ⟨T', h, _⟩
  rw [show yamlDecodeFileTree (marshalTree ([] : List FileNode)) =
      .error "cannot unmarshal into []FileNode" from rfl] at h
  exact Except.noConfusion h

/-! ### Character classes of the rendered tag strings -/

/-- Characters that may appear in a rendered tag value: anything that is not
a double quote, backslash, newline, comma, single quote or backquote. -/
def tagValChar (c : Char) : Bool :=
  c != '"' && c != '\\' && c != '\n' && c != ',' && c != '\'' && c != '`'

theorem joinSep_mem_chars (sep : String) :
    ∀ (l : List String) (c : Char), c ∈ (joinSep sep l).data →
      c ∈ sep.data ∨ ∃ s ∈ l, c ∈ s.data
  | [], c, h => by simp [joinSep] at h
  | [x], c, h => by
    right
    exact ⟨x, by simp, h⟩
  | x :: y :: t, c, h => by
    simp only [joinSep, String.data_append, List.mem_append] at h
    rcases h with (h | h) | h
    · exact Or.inr ⟨x, by simp, h⟩
    · exact Or.inl h
    · rcases joinSep_mem_chars sep (y :: t) c h with h' | ⟨s, hs, hc⟩
      · exact Or.inl h'
      · exact Or.inr ⟨s, List.mem_cons_of_mem x hs, hc⟩

theorem table_name_chars :
    ∀ p ∈ fileModeNamesList, ∀ c ∈ p.2.data,
      tagValChar c = true ∧ 65 ≤ c.toNat ∧ c.toNat ≤ 122 := by
  intro p hp
  fin_cases hp <;> (intro c hc; fin_cases hc <;> refine ⟨by decide, by decide, by decide⟩)

theorem fileModeToString_chars (v : Nat) :
    ∀ c ∈ (fileModeToString v).data, tagValChar c = true := by
  intro c hc
  unfold fileModeToString fileModeToStringOn at hc
  rcases joinSep_mem_chars "|" _ c hc with h | ⟨s, hs, hcs⟩
  · have : c = '|' := by simpa using h
    subst this; decide
  · rw [sortBy_mem] at hs
    obtain ⟨p, hp, rfl⟩ := List.mem_map.1 hs
    exact (table_name_chars p (List.mem_of_mem_filter hp) c hcs).1

theorem octDigit_toNat (d : Nat) (h : d < 8) : (octDigit d).toNat = 48 + d := by
  unfold octDigit
  interval_cases d <;> decide

theorem octRepAux_chars (fuel : Nat) :
    ∀ n, ∀ c ∈ octRepAux fuel n, 48 ≤ c.toNat ∧ c.toNat ≤ 55 := by
  induction fuel with
  | zero =>
    intro n c hc
    simp only [octRepAux, List.mem_singleton] at hc
    subst hc
    rw [octDigit_toNat _ (Nat.mod_lt _ (by omega))]
    have := Nat.mod_lt n (y := 8) (by omega)
    omega
  | succ fuel ih =>
    intro n c hc
    simp only [octRepAux] at hc
    split at hc
    · simp only [List.mem_singleton] at hc
      subst hc
      rw [octDigit_toNat _ (by omega)]
      omega
    · rcases List.mem_append.1 hc with h | h
      · exact ih _ c h
      · simp only [List.mem_singleton] at h
        subst h
        rw [octDigit_toNat _ (Nat.mod_lt _ (by omega))]
        have := Nat.mod_lt n (y := 8) (by omega)
        omega

theorem digit_tagValChar (c : Char) (h : 48 ≤ c.toNat ∧ c.toNat ≤ 55) :
    tagValChar c = true := by
  unfold tagValChar
  have h1 : c ≠ '"' := by rintro rfl; exact absurd h (by decide)
  have h2 : c ≠ '\\' := by rintro rfl; exact absurd h (by decide)
  have h3 : c ≠ '\n' := by rintro rfl; exact absurd h (by decide)
  have h4 : c ≠ ',' := by rintro rfl; exact absurd h (by decide)
  have h5 : c ≠ '\'' := by rintro rfl; exact absurd h (by decide)
  have h6 : c ≠ '`' := by rintro rfl; exact absurd h (by decide)
  simp [h1, h2, h3, h4, h5, h6]

theorem permOctal_chars (v : Nat) :
    ∀ c ∈ (permOctal v).data, tagValChar c = true := by
  intro c hc
  unfold permOctal octRep at hc
  rw [String.data_append] at hc
  rcases List.mem_append.1 hc with h | h
  · have : c = '0' := by simpa using h
    subst this; decide
  · exact digit_tagValChar c (octRepAux_chars v v c h)

/-! ### The symbolic mode rendering is invertible on flag-only values -/

theorem table_bits : ∀ p ∈ fileModeNamesList, ∃ j, 19 ≤ j ∧ j ≤ 31 ∧ p.1 = 2 ^ j := by
  intro p hp
  fin_cases hp
  exacts [⟨31, by omega, by omega, rfl⟩, ⟨30, by omega, by omega, rfl⟩,
    ⟨29, by omega, by omega, rfl⟩, ⟨28, by omega, by omega, rfl⟩,
    ⟨27, by omega, by omega, rfl⟩, ⟨26, by omega, by omega, rfl⟩,
    ⟨25, by omega, by omega, rfl⟩, ⟨24, by omega, by omega, rfl⟩,
    ⟨23, by omega, by omega, rfl⟩, ⟨22, by omega, by omega, rfl⟩,
    ⟨21, by omega, by omega, rfl⟩, ⟨20, by omega, by omega, rfl⟩,
    ⟨19, by omega, by omega, rfl⟩]

theorem table_bit_exists (i : Nat) (h1 : 19 ≤ i) (h2 : i ≤ 31) :
    ∃ p ∈ fileModeNamesList, p.1 = 2 ^ i := by
  interval_cases i
  · exact ⟨(MODE_IRREGULAR, "Irregular"), by simp [fileModeNamesList], rfl⟩
  · exact ⟨(MODE_STICKY, "Sticky"), by simp [fileModeNamesList], rfl⟩
  · exact ⟨(MODE_CHAR_DEVICE, "CharDevice"), by simp [fileModeNamesList], rfl⟩
  · exact ⟨(MODE_SETGID, "Setgid"), by simp [fileModeNamesList], rfl⟩
  · exact ⟨(MODE_SETUID, "Setuid"), by simp [fileModeNamesList], rfl⟩
  · exact ⟨(MODE_SOCKET, "Socket"), by simp [fileModeNamesList], rfl⟩
  · exact ⟨(MODE_NAMED_PIPE, "NamedPipe"), by simp [fileModeNamesList], rfl⟩
  · exact ⟨(MODE_DEVICE, "Device"), by simp [fileModeNamesList], rfl⟩
  · exact ⟨(MODE_SYMLINK, "Symlink"), by simp [fileModeNamesList], rfl⟩
  · exact ⟨(MODE_TEMPORARY, "Temporary"), by simp [fileModeNamesList], rfl⟩
  · exact ⟨(MODE_EXCLUSIVE, "Exclusive"), by simp [fileModeNamesList], rfl⟩
  · exact ⟨(MODE_APPEND, "Append"), by simp [fileModeNamesList], rfl⟩
  · exact ⟨(MODE_DIR, "Dir"), by simp [fileModeNamesList], rfl⟩

theorem flag_testBit_iff (i : Nat) : FLAG_MASK.testBit i = true ↔ (19 ≤ i ∧ i ≤ 31) := by
  by_cases hle : i ≤ 31
  · interval_cases i <;> simp [FLAG_MASK] <;> decide
  · constructor
    · intro hbit
      exfalso
      have hlt : FLAG_MASK < 2 ^ i := by
        have h32 : (2 : Nat) ^ 32 ≤ 2 ^ i := Nat.pow_le_pow_right (by omega) (by omega)
        unfold FLAG_MASK
        omega
      rw [Nat.testBit_lt_two_pow hlt] at hbit
      cases hbit
    · intro hi
      omega

theorem testBit_of_landFlag (v : Nat) (hv : v &&& FLAG_MASK = v) (i : Nat)
    (hi : ¬(19 ≤ i ∧ i ≤ 31)) : v.testBit i = false := by
  rw [← hv, Nat.testBit_and]
  cases hbit : FLAG_MASK.testBit i
  · simp
  · exact absurd ((flag_testBit_iff i).1 hbit) hi

theorem land_two_pow_ne (v i : Nat) : (v &&& 2 ^ i ≠ 0) ↔ v.testBit i = true := by
  rw [Nat.and_two_pow]
  have h2 : (2 : Nat) ^ i ≠ 0 := pow_ne_zero i two_ne_zero
  cases v.testBit i <;> simp [h2]

theorem foldl_or_testBit (l : List Nat) :
    ∀ (b : Nat) (i : Nat),
      (l.foldl (· ||| ·) b).testBit i = (b.testBit i || l.any (fun x => x.testBit i)) := by
  induction l with
  | nil => intro b i; simp
  | cons x t ih =>
    intro b i
    rw [List.foldl_cons, ih, Nat.testBit_or]
    simp [Bool.or_assoc]

/-- OR-ing the bits of the set-bit table entries recovers a flag-only value. -/
theorem filtered_or (v : Nat) (hv : v &&& FLAG_MASK = v) :
    ((fileModeNamesList.filter (fun p => v &&& p.1 != 0)).map (·.1)).foldl
      (· ||| ·) 0 = v := by
  apply Nat.eq_of_testBit_eq
  intro i
  rw [foldl_or_testBit]
  simp only [Nat.zero_testBit, Bool.false_or]
  cases hvb : v.testBit i
  · rw [List.any_eq_false]
    intro x hx
    obtain ⟨p, hp, rfl⟩ := List.mem_map.1 hx
    have hpmem := List.mem_of_mem_filter hp
    obtain ⟨j, _hj1, _hj2, hpj⟩ := table_bits p hpmem
    rw [hpj]
    by_cases hij : i = j
    · subst hij
      have hfil := List.of_mem_filter hp
      rw [hpj] at hfil
      have := (land_two_pow_ne v i).1 (by simpa using hfil)
      rw [hvb] at this
      cases this
    · simp [Nat.testBit_two_pow_of_ne (fun he => hij he.symm)]
  · have hflag : FLAG_MASK.testBit i = true := by
      by_contra hno
      have : v.testBit i = false :=
        testBit_of_landFlag v hv i (fun hii => hno ((flag_testBit_iff i).2 hii))
      rw [hvb] at this
      cases this
    obtain ⟨hi1, hi2⟩ := (flag_testBit_iff i).1 hflag
    obtain ⟨p, hp, hpi⟩ := table_bit_exists i hi1 hi2
    rw [List.any_eq_true]
    refine ⟨p.1, List.mem_map.2 ⟨p, List.mem_filter.2 ⟨hp, ?_⟩, rfl⟩, ?_⟩
    · rw [hpi]
      simpa using (land_two_pow_ne v i).2 hvb
    · rw [hpi]
      exact Nat.testBit_two_pow_self

theorem table_name_nonempty : ∀ p ∈ fileModeNamesList, p.2.data ≠ [] := by
  intro p hp
  fin_cases hp <;> simp

theorem fileModeFromString_table : ∀ p ∈ fileModeNamesList,
    fileModeFromString p.2 = .ok p.1 := by
  intro p hp
  fin_cases hp <;> rfl

theorem splitChar_no_sep (c : Char) : ∀ a : List Char, c ∉ a →
    splitChar c a = [a]
  | [], _ => rfl
  | x :: xs, h => by
    have hx : x ≠ c := fun he => h (he ▸ List.mem_cons_self x xs)
    have := splitChar_no_sep c xs (fun hm => h (List.mem_cons_of_mem x hm))
    simp only [splitChar, this]
    rw [if_neg hx]

theorem splitChar_ne_nil (c : Char) : ∀ r : List Char, splitChar c r ≠ []
  | [] => by simp [splitChar]
  | x :: xs => by
    simp only [splitChar]
    cases hs : splitChar c xs with
    | nil => exact absurd hs (splitChar_ne_nil c xs)
    | cons h t => by_cases hxc : x = c <;> simp [hxc]

theorem splitChar_append (c : Char) : ∀ (a r : List Char), c ∉ a →
    splitChar c (a ++ c :: r) = a :: splitChar c r
  | [], r, _ => by
    have hne := splitChar_ne_nil c r
    simp only [List.nil_append, splitChar]
    cases hs : splitChar c r with
    | nil => exact absurd hs hne
    | cons h t => simp
  | x :: xs, r, h => by
    have hx : x ≠ c := fun he => h (he ▸ List.mem_cons_self x xs)
    have ih := splitChar_append c xs r (fun hm => h (List.mem_cons_of_mem x hm))
    simp only [List.cons_append, splitChar, List.append_eq, ih]
    rw [if_neg hx]

theorem splitJoin : ∀ l : List String, (∀ s ∈ l, '|' ∉ s.data) → l ≠ [] →
    splitChar '|' (joinSep "|" l).data = l.map String.data
  | [], _, hne => absurd rfl hne
  | [x], h, _ => by
    simp only [joinSep, List.map]
    exact splitChar_no_sep '|' x.data (h x (by simp))
  | x :: y :: t, h, _ => by
    have hx : '|' ∉ x.data := h x (by simp)
    have ih := splitJoin (y :: t) (fun s hs => h s (List.mem_cons_of_mem x hs))
      (by simp)
    show splitChar '|' (x ++ "|" ++ joinSep "|" (y :: t)).data = _
    have hdata : (x ++ "|" ++ joinSep "|" (y :: t)).data =
        x.data ++ '|' :: (joinSep "|" (y :: t)).data := by
      simp [String.data_append]
    rw [hdata, splitChar_append '|' x.data _ hx, ih]
    rfl

/-- Bit of a symbolic flag name (helper for stating the fold). -/
def bitOfStr (s : String) : Nat :=
  match fileModeFromString s with
  | .ok b => b
  | .error _ => 0

theorem foldlM_names (m : List String)
    (hm : ∀ s ∈ m, ∃ b, fileModeFromString s = .ok b) :
    ∀ a : Nat,
      m.foldlM (fun acc seg => (fileModeFromString seg).map (acc ||| ·)) a =
        .ok (m.foldl (fun acc seg => acc ||| bitOfStr seg) a) := by
  induction m with
  | nil => intro a; rfl
  | cons s t ih =>
    intro a
    obtain ⟨b, hb⟩ := hm s (by simp)
    have hbit : bitOfStr s = b := by unfold bitOfStr; rw [hb]
    simp only [List.foldlM_cons, hb, Except.map, List.foldl_cons, hbit]
    exact ih (fun x hx => hm x (List.mem_cons_of_mem s hx)) (a ||| b)

theorem foldl_or_perm {l1 l2 : List Nat} (hp : List.Perm l1 l2) :
    ∀ b : Nat, l1.foldl (· ||| ·) b = l2.foldl (· ||| ·) b := by
  induction hp with
  | nil => intro b; rfl
  | cons x _ ih => intro b; simp only [List.foldl_cons]; exact ih _
  | swap x y t =>
    intro b
    simp only [List.foldl_cons]
    have : b ||| y ||| x = b ||| x ||| y := by
      rw [Nat.or_assoc, Nat.or_assoc, Nat.or_comm y x]
    rw [this]
  | trans _ _ ih1 ih2 => intro b; rw [ih1 b, ih2 b]

theorem joinSep_cons_data (sep x : String) (t : List String) :
    ∃ r, (joinSep sep (x :: t)).data = x.data ++ r := by
  cases t with
  | nil => exact ⟨[], by simp [joinSep]⟩
  | cons y t' =>
    exact ⟨sep.data ++ (joinSep sep (y :: t')).data,
      by simp [joinSep, String.data_append]⟩

theorem digitVal_letter (b : Nat) (c : Char) (hc : 58 ≤ c.toNat) :
    digitVal b c = none := by
  unfold digitVal
  rw [if_neg (by omega)]

theorem parseUintGo_head_invalid (s : String) (c : Char) (rest : List Char)
    (hdata : s.data = c :: rest) (hc : digitVal 10 c = none) :
    parseUintGo s 10 = none := by
  unfold parseUintGo
  rw [hdata]
  simp [List.foldlM, hc]

/-- The symbolic rendering of a nonzero flag-only value parses back to the
value. -/
theorem parseTag_fileModeToString (v : Nat) (h1 : v ≠ 0)
    (h2 : v &&& FLAG_MASK = v) :
    parseTag (fileModeToString v) = .ok v := by
  have hfilne : fileModeNamesList.filter (fun p => v &&& p.1 != 0) ≠ [] := by
    intro hem
    have hor := filtered_or v h2
    rw [hem] at hor
    simp only [List.map_nil, List.foldl_nil] at hor
    exact h1 hor.symm
  have hnamesne : (fileModeNamesList.filter (fun p => v &&& p.1 != 0)).map (·.2) ≠ [] := by
    simpa using hfilne
  cases hs : sortBy id ((fileModeNamesList.filter (fun p => v &&& p.1 != 0)).map (·.2)) with
  | nil =>
    exfalso
    have hlen := (sortBy_perm id
      ((fileModeNamesList.filter (fun p => v &&& p.1 != 0)).map (·.2))).length_eq
    rw [hs] at hlen
    exact hnamesne (List.length_eq_zero.1 hlen.symm)
  | cons s0 srest =>
    have hs0mem : s0 ∈ (fileModeNamesList.filter (fun p => v &&& p.1 != 0)).map (·.2) := by
      rw [← sortBy_mem id s0, hs]
      simp
    obtain ⟨p0, hp0, hp0e⟩ := List.mem_map.1 hs0mem
    have hp0tab := List.mem_of_mem_filter hp0
    have hs0ne : s0.data ≠ [] := hp0e ▸ table_name_nonempty p0 hp0tab
    obtain ⟨c0, r0, hc0⟩ : ∃ c r, s0.data = c :: r := by
      cases hd : s0.data with
      | nil => exact absurd hd hs0ne
      | cons c r => exact ⟨c, r, rfl⟩
    have hc0mem : c0 ∈ s0.data := by rw [hc0]; simp
    have hc0rng : 65 ≤ c0.toNat ∧ c0.toNat ≤ 122 := by
      have := table_name_chars p0 hp0tab c0 (hp0e ▸ hc0mem)
      exact ⟨this.2.1, this.2.2⟩
    have hfull : fileModeToString v =
        joinSep "|" (s0 :: srest) := by
      unfold fileModeToString fileModeToStringOn
      rw [hs]
    obtain ⟨rjoin, hrjoin⟩ := joinSep_cons_data "|" s0 srest
    have hdata : (fileModeToString v).data = c0 :: (r0 ++ rjoin) := by
      rw [hfull, hrjoin, hc0]
      rfl
    unfold parseTag
    have hbase : ((fileModeToString v).data.head? = some '0') = False := by
      rw [hdata]
      simp only [List.head?_cons, Option.some.injEq, eq_iff_iff, iff_false]
      intro hce
      have : c0.toNat = 48 := by rw [hce]; rfl
      omega
    simp only [hbase, if_false]
    rw [parseUintGo_head_invalid _ c0 (r0 ++ rjoin) hdata
      (digitVal_letter 10 c0 (by omega))]
    have hsortmem : ∀ s ∈ s0 :: srest,
        s ∈ (fileModeNamesList.filter (fun p => v &&& p.1 != 0)).map (·.2) := by
      intro s hmem
      rw [← sortBy_mem id s, hs]
      exact hmem
    have hsplit : splitPipe (fileModeToString v) = s0 :: srest := by
      unfold splitPipe
      rw [hfull]
      rw [splitJoin (s0 :: srest) ?_ (by simp)]
      · rw [List.map_map]
        have : (fun l : List Char => (⟨l⟩ : String)) ∘ String.data = id := by
          funext x
          rfl
        rw [this, List.map_id]
      · intro s hsm
        obtain ⟨p, hp, rfl⟩ := List.mem_map.1 (hsortmem s hsm)
        intro hpipe
        have := table_name_chars p (List.mem_of_mem_filter hp) '|' hpipe
        have h124 : ('|').toNat = 124 := rfl
        omega
    rw [hsplit]
    rw [foldlM_names (s0 :: srest) ?_ 0]
    · congr 1
      have hmapfold : (s0 :: srest).foldl (fun acc seg => acc ||| bitOfStr seg) 0 =
          ((s0 :: srest).map bitOfStr).foldl (· ||| ·) 0 := by
        rw [List.foldl_map]
      rw [hmapfold]
      have hperm : List.Perm ((s0 :: srest).map bitOfStr)
          (((fileModeNamesList.filter (fun p => v &&& p.1 != 0)).map (·.2)).map bitOfStr) := by
        apply List.Perm.map
        rw [← hs]
        exact sortBy_perm id _
      rw [foldl_or_perm hperm 0]
      rw [List.map_map]
      have hcong : (fileModeNamesList.filter (fun p => v &&& p.1 != 0)).map
          (bitOfStr ∘ (·.2)) =
          (fileModeNamesList.filter (fun p => v &&& p.1 != 0)).map (·.1) := by
        apply List.map_congr_left
        intro p hp
        have := fileModeFromString_table p (List.mem_of_mem_filter hp)
        simp only [Function.comp]
        unfold bitOfStr
        rw [this]
      rw [hcong, filtered_or v h2]
    · intro s hsm
      obtain ⟨p, hp, rfl⟩ := List.mem_map.1 (hsortmem s hsm)
      exact ⟨p.1, fileModeFromString_table p (List.mem_of_mem_filter hp)⟩

/-- The octal rendering of a 32-bit value parses back to the value. -/
theorem parseTag_permOctal (v : Nat) (hv : v < 2 ^ 32) :
    parseTag (permOctal v) = .ok v := by
  unfold parseTag
  have hd : (permOctal v).data.head? = some '0' := by
    unfold permOctal octRep
    rw [String.data_append]
    rfl
  simp only [hd, if_pos]
  rw [parseUintGo_permOctal v hv]

/-! ### `structtag` parses its own rendering -/

/-- One `key:"value"` pair as rendered by `structtag.Tag.String`. -/
def renderPair (kv : String × String) : String :=
  kv.1 ++ ":\"" ++ kv.2 ++ "\""

/-- The `(key, value)` pairs `FileModeTags.String` emits, in order. -/
def canonPairs (t : TagMap) : List (String × String) :=
  ((tagsMode t).map (fun v => ("mode", fileModeToString v))).toList ++
  ((tagsType t).map (fun v => ("type", fileModeToString v))).toList ++
  ((tagsPerm t).map (fun v => ("perm", permOctal (v &&& MODE_PERM)))).toList

theorem tagsString_eq_render (t : TagMap) :
    tagsString t = joinSep " " ((canonPairs t).map renderPair) := by
  unfold tagsString canonPairs renderPair
  cases tagsMode t <;> cases tagsType t <;> cases tagsPerm t <;> rfl

theorem takeWhile_all (p : Char → Bool) : ∀ l : List Char,
    (∀ c ∈ l, p c = true) → l.takeWhile p = l
  | [], _ => rfl
  | c :: t, h => by
    rw [List.takeWhile_cons, if_pos (h c (by simp)),
      takeWhile_all p t (fun x hx => h x (List.mem_cons_of_mem c hx))]

theorem takeWhile_app (p : Char → Bool) :
    ∀ (a : List Char), (∀ c ∈ a, p c = true) → ∀ (b : Char) (r : List Char),
      p b = false →
      (a ++ b :: r).takeWhile p = a ∧ (a ++ b :: r).dropWhile p = b :: r
  | [], _, b, r, hb => by
    constructor
    · rw [List.nil_append, List.takeWhile_cons, if_neg (by simp [hb])]
    · rw [List.nil_append, List.dropWhile_cons, if_neg (by simp [hb])]
  | c :: a', h, b, r, hb => by
    have hc := h c (by simp)
    have ih := takeWhile_app p a' (fun x hx => h x (List.mem_cons_of_mem c hx)) b r hb
    constructor
    · rw [List.cons_append, List.takeWhile_cons, if_pos hc, ih.1]
    · rw [List.cons_append, List.dropWhile_cons, if_pos hc, ih.2]

theorem scanVal_clean : ∀ (v after : List Char), '"' ∉ v → '\\' ∉ v →
    scanVal (v ++ '"' :: after) = some (v, after)
  | [], after, _, _ => by simp [scanVal]
  | c :: v', after, hq, hb => by
    have hcq : c ≠ '"' := fun he => hq (he ▸ List.mem_cons_self c v')
    have hcb : c ≠ '\\' := fun he => hb (he ▸ List.mem_cons_self c v')
    rw [List.cons_append]
    rw [show scanVal (c :: (v' ++ '"' :: after)) =
        (scanVal (v' ++ '"' :: after)).map (fun p => (c :: p.1, p.2)) by
      cases hvv : v' ++ '"' :: after <;> simp [scanVal, hcq, hcb]]
    rw [scanVal_clean v' after (fun hm => hq (List.mem_cons_of_mem c hm))
      (fun hm => hb (List.mem_cons_of_mem c hm))]
    rfl

theorem unquote_clean (v : List Char) (hb : '\\' ∉ v) (hn : '\n' ∉ v) :
    unquoteGo v = some ⟨v⟩ := by
  unfold unquoteGo
  rw [if_neg]
  intro hany
  rw [List.any_eq_true] at hany
  obtain ⟨c, hc, hor⟩ := hany
  simp only [Bool.or_eq_true, decide_eq_true_eq] at hor
  rcases hor with rfl | rfl
  · exact hb hc
  · exact hn hc

theorem stParseAux_nil (fuel : Nat) : stParseAux fuel [] = .ok [] := by
  cases fuel <;> rw [stParseAux] <;> simp

theorem stParseAux_space (fuel : Nat) (cs : List Char) :
    stParseAux fuel (' ' :: cs) = stParseAux fuel cs := by
  have hd : (' ' :: cs).dropWhile (fun x => x = ' ') = cs.dropWhile (fun x => x = ' ') := by
    rw [List.dropWhile_cons]
    simp
  cases fuel with
  | zero => rw [stParseAux, stParseAux, hd]
  | succ fuel => rw [stParseAux, stParseAux, hd]

theorem keyChar_ne_space (c : Char) (h : keyChar c = true) : (c = ' ') = False := by
  unfold keyChar at h
  simp only [Bool.and_eq_true, decide_eq_true_eq, bne_iff_ne] at h
  simp only [eq_iff_iff, iff_false]
  intro he
  subst he
  revert h
  decide

/-- One rendered pair followed by arbitrary input parses as the pair followed
by the parse of the rest, for any fuel left for the rest. -/
theorem stParseAux_pair (fuel : Nat) (k v : String) (tail : List Char)
    (hk : k.data ≠ []) (hkc : ∀ c ∈ k.data, keyChar c = true)
    (hvc : ∀ c ∈ v.data, tagValChar c = true) :
    stParseAux (fuel + 1) ((renderPair (k, v)).data ++ tail) =
      (stParseAux fuel tail).map (fun tl => (k, v) :: tl) := by
  have hdata : (renderPair (k, v)).data ++ tail =
      k.data ++ ':' :: '"' :: (v.data ++ '"' :: tail) := by
    simp [renderPair, String.data_append]
  rw [hdata]
  obtain ⟨c0, k', hc0⟩ : ∃ c r, k.data = c :: r := by
    cases hd : k.data with
    | nil => exact absurd hd hk
    | cons c r => exact ⟨c, r, rfl⟩
  have happ := takeWhile_app keyChar k.data hkc ':'
    ('"' :: (v.data ++ '"' :: tail)) (by decide)
  have hvq : '"' ∉ v.data := fun hm => by
    have := hvc '"' hm
    revert this
    decide
  have hvb : '\\' ∉ v.data := fun hm => by
    have := hvc '\\' hm
    revert this
    decide
  have hvn : '\n' ∉ v.data := fun hm => by
    have := hvc '\n' hm
    revert this
    decide
  have hvcm : ∀ c ∈ v.data, (fun c => c != ',') c = true := by
    intro c hcm
    have := hvc c hcm
    unfold tagValChar at this
    simp only [Bool.and_eq_true] at this
    exact this.1.1.2
  rw [stParseAux]
  have hdrop : (k.data ++ ':' :: '"' :: (v.data ++ '"' :: tail)).dropWhile
      (fun x => x = ' ') = k.data ++ ':' :: '"' :: (v.data ++ '"' :: tail) := by
    rw [hc0, List.cons_append, List.dropWhile_cons]
    rw [if_neg]
    simp only [decide_eq_true_eq]
    rw [keyChar_ne_space c0 (hkc c0 (by rw [hc0]; simp))]
    exact id
  simp only [hdrop]
  rw [if_neg (by rw [hc0]; simp)]
  rw [if_neg (by rw [happ.1]; exact hk)]
  have hsplitmatch := happ.2
  simp only [hsplitmatch]
  rw [scanVal_clean v.data tail hvq hvb]
  simp only
  rw [unquote_clean v.data hvb hvn]
  simp only
  rw [happ.1]
  have heta1 : (⟨k.data⟩ : String) = k := rfl
  have heta2 : (⟨v.data.takeWhile (fun c => c != ',')⟩ : String) = v := by
    rw [takeWhile_all _ v.data hvcm]
  rw [heta1, heta2]

theorem renderPair_data (kv : String × String) :
    (renderPair kv).data = kv.1.data ++ ':' :: '"' :: (kv.2.data ++ ['"']) := by
  simp [renderPair, String.data_append]

theorem render_length_ge : ∀ pairs : List (String × String),
    pairs.length ≤ (joinSep " " (pairs.map renderPair)).data.length
  | [] => by simp [joinSep]
  | [kv] => by
    rw [show joinSep " " (List.map renderPair [kv]) = renderPair kv from rfl]
    rw [renderPair_data kv]
    simp only [List.length_cons, List.length_append, List.length_nil]
    omega
  | kv :: kv2 :: rest => by
    have ih := render_length_ge (kv2 :: rest)
    have hpos : 1 ≤ (renderPair kv).data.length := by
      rw [renderPair_data kv]
      simp only [List.length_cons, List.length_append, List.length_nil]
      omega
    have hdata : (joinSep " " ((kv :: kv2 :: rest).map renderPair)).data =
        (renderPair kv).data ++ ' ' :: (joinSep " " ((kv2 :: rest).map renderPair)).data := by
      simp [joinSep, String.data_append]
    rw [hdata]
    simp only [List.length_append, List.length_cons] at ih ⊢
    omega

theorem stParseAux_render : ∀ pairs : List (String × String),
    (∀ kv ∈ pairs, kv.1.data ≠ [] ∧ (∀ c ∈ kv.1.data, keyChar c = true) ∧
      (∀ c ∈ kv.2.data, tagValChar c = true)) →
    ∀ fuel : Nat, pairs.length ≤ fuel →
    stParseAux fuel (joinSep " " (pairs.map renderPair)).data = .ok pairs
  | [], _, fuel, _ => by
    rw [show (joinSep " " (List.map renderPair [])).data = ([] : List Char) from rfl]
    exact stParseAux_nil fuel
  | [kv], h, fuel, hf => by
    obtain ⟨h1, h2, h3⟩ := h kv (by simp)
    cases fuel with
    | zero => simp at hf
    | succ fuel =>
      rw [show (joinSep " " (List.map renderPair [kv])).data = (renderPair kv).data from rfl]
      rw [← List.append_nil (renderPair (kv.1, kv.2)).data]
      rw [stParseAux_pair fuel kv.1 kv.2 [] h1 h2 h3]
      rw [stParseAux_nil fuel]
      rfl
  | kv :: kv2 :: rest, h, fuel, hf => by
    obtain ⟨h1, h2, h3⟩ := h kv (by simp)
    cases fuel with
    | zero => simp at hf
    | succ fuel =>
      have hf' : (kv2 :: rest).length ≤ fuel := by
        simp only [List.length_cons] at hf ⊢
        omega
      have ih := stParseAux_render (kv2 :: rest)
        (fun x hx => h x (List.mem_cons_of_mem kv hx)) fuel hf'
      have hdata : (joinSep " " ((kv :: kv2 :: rest).map renderPair)).data =
          (renderPair (kv.1, kv.2)).data ++
            (' ' :: (joinSep " " ((kv2 :: rest).map renderPair)).data) := by
        simp [joinSep, String.data_append]
      rw [hdata, stParseAux_pair fuel kv.1 kv.2 _ h1 h2 h3, stParseAux_space, ih]
      rfl

/-- `structtag.Parse` recovers the rendered pairs. -/
theorem stParse_render (pairs : List (String × String))
    (h : ∀ kv ∈ pairs, kv.1.data ≠ [] ∧ (∀ c ∈ kv.1.data, keyChar c = true) ∧
      (∀ c ∈ kv.2.data, tagValChar c = true)) :
    stParse (joinSep " " (pairs.map renderPair)).data = .ok pairs := by
  rw [stParse]
  exact stParseAux_render pairs h _ (render_length_ge pairs)

theorem parseTag_modeVal (v : Nat) (h : modeValOk v = true) :
    parseTag (fileModeToString v) = .ok v := by
  unfold modeValOk at h
  simp only [Bool.and_eq_true, bne_iff_ne, ne_eq, beq_iff_eq] at h
  exact parseTag_fileModeToString v h.1 h.2

theorem parseTag_permVal (v : Nat) (h : permValOk v = true) :
    parseTag (permOctal (v &&& MODE_PERM)) = .ok v := by
  unfold permValOk at h
  simp only [beq_iff_eq] at h
  have hlt : v &&& MODE_PERM < 2 ^ 32 :=
    lt_of_le_of_lt Nat.and_le_right (by unfold MODE_PERM; norm_num)
  rw [parseTag_permOctal _ hlt, h]

/-- `unmarshalTags` inverts `FileModeTags.String` on codec-safe tag maps. -/
theorem unmarshalTags_tagsString (t : TagMap) (h : tagsOk t = true) :
    unmarshalTags (tagsString t) = .ok t := by
  unfold tagsOk at h
  simp only [Bool.and_eq_true, decide_eq_true_eq] at h
  obtain ⟨⟨⟨hcanon, hmode⟩, htype⟩, hperm⟩ := h
  unfold unmarshalTags
  cases hm : tagsMode t <;> cases hty : tagsType t <;> cases hp : tagsPerm t
  · have hcp : canonPairs t = [] := by
      simp [canonPairs, hm, hty, hp]
    have ht : t = [] := by
      rw [hcanon]; simp [canonTags, hm, hty, hp]
    have hparse : stParse (tagsString t).data = .ok (canonPairs t) := by
      rw [tagsString_eq_render]
      apply stParse_render
      rw [hcp]
      intro kv hkv
      simp at hkv
    rw [hparse, hcp, ht]
    simp [List.foldlM_cons, List.foldlM_nil, bind, Except.bind, pure, Except.pure, tagsSet]
  · rename_i vp
    simp only [hp, Option.all] at hperm
    have hcp : canonPairs t = [("perm", permOctal (vp &&& MODE_PERM))] := by
      simp [canonPairs, hm, hty, hp]
    have ht : t = [("perm", vp)] := by
      rw [hcanon]; simp [canonTags, hm, hty, hp]
    have hparse : stParse (tagsString t).data = .ok (canonPairs t) := by
      rw [tagsString_eq_render]
      apply stParse_render
      rw [hcp]
      intro kv hkv
      simp only [List.mem_cons, List.not_mem_nil, or_false] at hkv
      subst hkv
      exact ⟨(by decide : ¬ ("perm" : String).data = []),
        (by decide : ∀ c ∈ ("perm" : String).data, keyChar c = true), permOctal_chars _⟩
    rw [hparse, hcp, ht]
    simp [List.foldlM_cons, List.foldlM_nil, parseTag_permVal vp hperm, bind, Except.bind, pure, Except.pure, tagsSet]
  · rename_i vt
    simp only [hty, Option.all] at htype
    have hcp : canonPairs t = [("type", fileModeToString vt)] := by
      simp [canonPairs, hm, hty, hp]
    have ht : t = [("type", vt)] := by
      rw [hcanon]; simp [canonTags, hm, hty, hp]
    have hparse : stParse (tagsString t).data = .ok (canonPairs t) := by
      rw [tagsString_eq_render]
      apply stParse_render
      rw [hcp]
      intro kv hkv
      simp only [List.mem_cons, List.not_mem_nil, or_false] at hkv
      subst hkv
      exact ⟨(by decide : ¬ ("type" : String).data = []),
        (by decide : ∀ c ∈ ("type" : String).data, keyChar c = true), fileModeToString_chars vt⟩
    rw [hparse, hcp, ht]
    simp [List.foldlM_cons, List.foldlM_nil, parseTag_modeVal vt htype, bind, Except.bind, pure, Except.pure, tagsSet]
  · rename_i vt vp
    simp only [hty, Option.all] at htype
    simp only [hp, Option.all] at hperm
    have hcp : canonPairs t = [("type", fileModeToString vt), ("perm", permOctal (vp &&& MODE_PERM))] := by
      simp [canonPairs, hm, hty, hp]
    have ht : t = [("type", vt), ("perm", vp)] := by
      rw [hcanon]; simp [canonTags, hm, hty, hp]
    have hparse : stParse (tagsString t).data = .ok (canonPairs t) := by
      rw [tagsString_eq_render]
      apply stParse_render
      rw [hcp]
      intro kv hkv
      simp only [List.mem_cons, List.not_mem_nil, or_false] at hkv
      rcases hkv with rfl | rfl
      · exact ⟨(by decide : ¬ ("type" : String).data = []),
        (by decide : ∀ c ∈ ("type" : String).data, keyChar c = true), fileModeToString_chars vt⟩
      · exact ⟨(by decide : ¬ ("perm" : String).data = []),
        (by decide : ∀ c ∈ ("perm" : String).data, keyChar c = true), permOctal_chars _⟩
    rw [hparse, hcp, ht]
    simp [List.foldlM_cons, List.foldlM_nil, parseTag_modeVal vt htype, parseTag_permVal vp hperm, bind, Except.bind, pure, Except.pure, tagsSet]
  · rename_i vm
    simp only [hm, Option.all] at hmode
    have hcp : canonPairs t = [("mode", fileModeToString vm)] := by
      simp [canonPairs, hm, hty, hp]
    have ht : t = [("mode", vm)] := by
      rw [hcanon]; simp [canonTags, hm, hty, hp]
    have hparse : stParse (tagsString t).data = .ok (canonPairs t) := by
      rw [tagsString_eq_render]
      apply stParse_render
      rw [hcp]
      intro kv hkv
      simp only [List.mem_cons, List.not_mem_nil, or_false] at hkv
      subst hkv
      exact ⟨(by decide : ¬ ("mode" : String).data = []),
        (by decide : ∀ c ∈ ("mode" : String).data, keyChar c = true), fileModeToString_chars vm⟩
    rw [hparse, hcp, ht]
    simp [List.foldlM_cons, List.foldlM_nil, parseTag_modeVal vm hmode, bind, Except.bind, pure, Except.pure, tagsSet]
  · rename_i vm vp
    simp only [hm, Option.all] at hmode
    simp only [hp, Option.all] at hperm
    have hcp : canonPairs t = [("mode", fileModeToString vm), ("perm", permOctal (vp &&& MODE_PERM))] := by
      simp [canonPairs, hm, hty, hp]
    have ht : t = [("mode", vm), ("perm", vp)] := by
      rw [hcanon]; simp [canonTags, hm, hty, hp]
    have hparse : stParse (tagsString t).data = .ok (canonPairs t) := by
      rw [tagsString_eq_render]
      apply stParse_render
      rw [hcp]
      intro kv hkv
      simp only [List.mem_cons, List.not_mem_nil, or_false] at hkv
      rcases hkv with rfl | rfl
      · exact ⟨(by decide : ¬ ("mode" : String).data = []),
        (by decide : ∀ c ∈ ("mode" : String).data, keyChar c = true), fileModeToString_chars vm⟩
      · exact ⟨(by decide : ¬ ("perm" : String).data = []),
        (by decide : ∀ c ∈ ("perm" : String).data, keyChar c = true), permOctal_chars _⟩
    rw [hparse, hcp, ht]
    simp [List.foldlM_cons, List.foldlM_nil, parseTag_modeVal vm hmode, parseTag_permVal vp hperm, bind, Except.bind, pure, Except.pure, tagsSet]
  · rename_i vm vt
    simp only [hm, Option.all] at hmode
    simp only [hty, Option.all] at htype
    have hcp : canonPairs t = [("mode", fileModeToString vm), ("type", fileModeToString vt)] := by
      simp [canonPairs, hm, hty, hp]
    have ht : t = [("mode", vm), ("type", vt)] := by
      rw [hcanon]; simp [canonTags, hm, hty, hp]
    have hparse : stParse (tagsString t).data = .ok (canonPairs t) := by
      rw [tagsString_eq_render]
      apply stParse_render
      rw [hcp]
      intro kv hkv
      simp only [List.mem_cons, List.not_mem_nil, or_false] at hkv
      rcases hkv with rfl | rfl
      · exact ⟨(by decide : ¬ ("mode" : String).data = []),
        (by decide : ∀ c ∈ ("mode" : String).data, keyChar c = true), fileModeToString_chars vm⟩
      · exact ⟨(by decide : ¬ ("type" : String).data = []),
        (by decide : ∀ c ∈ ("type" : String).data, keyChar c = true), fileModeToString_chars vt⟩
    rw [hparse, hcp, ht]
    simp [List.foldlM_cons, List.foldlM_nil, parseTag_modeVal vm hmode, parseTag_modeVal vt htype, bind, Except.bind, pure, Except.pure, tagsSet]
  · rename_i vm vt vp
    simp only [hm, Option.all] at hmode
    simp only [hty, Option.all] at htype
    simp only [hp, Option.all] at hperm
    have hcp : canonPairs t = [("mode", fileModeToString vm), ("type", fileModeToString vt), ("perm", permOctal (vp &&& MODE_PERM))] := by
      simp [canonPairs, hm, hty, hp]
    have ht : t = [("mode", vm), ("type", vt), ("perm", vp)] := by
      rw [hcanon]; simp [canonTags, hm, hty, hp]
    have hparse : stParse (tagsString t).data = .ok (canonPairs t) := by
      rw [tagsString_eq_render]
      apply stParse_render
      rw [hcp]
      intro kv hkv
      simp only [List.mem_cons, List.not_mem_nil, or_false] at hkv
      rcases hkv with rfl | rfl | rfl
      · exact ⟨(by decide : ¬ ("mode" : String).data = []),
        (by decide : ∀ c ∈ ("mode" : String).data, keyChar c = true), fileModeToString_chars vm⟩
      · exact ⟨(by decide : ¬ ("type" : String).data = []),
        (by decide : ∀ c ∈ ("type" : String).data, keyChar c = true), fileModeToString_chars vt⟩
      · exact ⟨(by decide : ¬ ("perm" : String).data = []),
        (by decide : ∀ c ∈ ("perm" : String).data, keyChar c = true), permOctal_chars _⟩
    rw [hparse, hcp, ht]
    simp [List.foldlM_cons, List.foldlM_nil, parseTag_modeVal vm hmode, parseTag_modeVal vt htype, parseTag_permVal vp hperm, bind, Except.bind, pure, Except.pure, tagsSet]

/-! ### Shape of the rendered tag string -/

theorem tagValChar_qb (c : Char) (h : tagValChar c = true) : c ≠ '\'' ∧ c ≠ '`' := by
  unfold tagValChar at h
  simp only [Bool.and_eq_true, bne_iff_ne, ne_eq] at h
  exact ⟨h.1.2, h.2⟩

theorem canonPairs_chars (t : TagMap) : ∀ kv ∈ canonPairs t,
    (kv.1 = "mode" ∨ kv.1 = "type" ∨ kv.1 = "perm") ∧
      ∀ c ∈ kv.2.data, tagValChar c = true := by
  intro kv hkv
  unfold canonPairs at hkv
  rcases List.mem_append.1 hkv with h | h1
  · rcases List.mem_append.1 h with h1 | h1
    · cases hm : tagsMode t
      · rw [hm] at h1; simp at h1
      · rw [hm] at h1
        simp at h1
        subst h1
        exact ⟨Or.inl rfl, fileModeToString_chars _⟩
    · cases hm : tagsType t
      · rw [hm] at h1; simp at h1
      · rw [hm] at h1
        simp at h1
        subst h1
        exact ⟨Or.inr (Or.inl rfl), fileModeToString_chars _⟩
  · cases hm : tagsPerm t
    · rw [hm] at h1; simp at h1
    · rw [hm] at h1
      simp at h1
      subst h1
      exact ⟨Or.inr (Or.inr rfl), permOctal_chars _⟩

theorem tagsString_chars (t : TagMap) :
    ∀ c ∈ (tagsString t).data, c ≠ '\'' ∧ c ≠ '`' := by
  intro c hc
  rw [tagsString_eq_render] at hc
  rcases joinSep_mem_chars " " _ c hc with h | ⟨s, hs, hcs⟩
  · have hsp : c = ' ' := by simpa using h
    subst hsp
    exact ⟨by decide, by decide⟩
  · obtain ⟨kv, hkv, rfl⟩ := List.mem_map.1 hs
    rw [renderPair_data] at hcs
    obtain ⟨hkey, hval⟩ := canonPairs_chars t kv hkv
    rcases List.mem_append.1 hcs with h1 | h1
    · rcases hkey with hk | hk | hk <;> rw [hk] at h1
      · exact (by decide : ∀ x ∈ ("mode" : String).data, x ≠ '\'' ∧ x ≠ '`') c h1
      · exact (by decide : ∀ x ∈ ("type" : String).data, x ≠ '\'' ∧ x ≠ '`') c h1
      · exact (by decide : ∀ x ∈ ("perm" : String).data, x ≠ '\'' ∧ x ≠ '`') c h1
    · rcases List.mem_cons.1 h1 with rfl | h2
      · exact ⟨by decide, by decide⟩
      rcases List.mem_cons.1 h2 with rfl | h3
      · exact ⟨by decide, by decide⟩
      rcases List.mem_append.1 h3 with h4 | h4
      · exact tagValChar_qb c (hval c h4)
      · have hq : c = '"' := by simpa using h4
        subst hq
        exact ⟨by decide, by decide⟩

theorem canonPairs_ne (t : TagMap) (hcanon : t = canonTags t) (hne : t ≠ []) :
    canonPairs t ≠ [] := by
  cases hm : tagsMode t <;> cases hty : tagsType t <;> cases hp : tagsPerm t <;>
    simp [canonPairs, hm, hty, hp]
  exact hne (by rw [hcanon]; simp [canonTags, hm, hty, hp])

theorem renderPair_last (kv : String × String) :
    ∃ r, (renderPair kv).data = r ++ ['"'] := by
  refine ⟨kv.1.data ++ ':' :: '"' :: kv.2.data, ?_⟩
  rw [renderPair_data]
  simp

theorem joinSep_ends : ∀ l : List String, l ≠ [] →
    (∀ s ∈ l, ∃ r, s.data = r ++ ['"']) →
    ∃ r, (joinSep " " l).data = r ++ ['"']
  | [], h, _ => absurd rfl h
  | [x], _, h => by simpa [joinSep] using h x (by simp)
  | x :: y :: t, _, h => by
    obtain ⟨r, hr⟩ := joinSep_ends (y :: t) (by simp)
      (fun s hs => h s (List.mem_cons_of_mem x hs))
    refine ⟨x.data ++ ' ' :: r, ?_⟩
    rw [show joinSep " " (x :: y :: t) = x ++ " " ++ joinSep " " (y :: t) from rfl]
    simp [String.data_append, hr]

theorem tagsString_shape (t : TagMap) (hne : canonPairs t ≠ []) :
    (∃ c r, (tagsString t).data = c :: r ∧ isCutChar c = false) ∧
    (∃ r, (tagsString t).data = r ++ ['"']) := by
  obtain ⟨p1, rest, hsplit⟩ : ∃ p1 rest, canonPairs t = p1 :: rest := by
    cases hcp : canonPairs t with
    | nil => exact absurd hcp hne
    | cons a b => exact ⟨a, b, rfl⟩
  constructor
  · rw [tagsString_eq_render, hsplit, List.map_cons]
    obtain ⟨r, hr⟩ := joinSep_cons_data " " (renderPair p1) (rest.map renderPair)
    rw [renderPair_data] at hr
    obtain ⟨hkey, _⟩ := canonPairs_chars t p1 (hsplit ▸ List.mem_cons_self p1 rest)
    rcases hkey with hk | hk | hk <;> rw [hk] at hr
    · exact ⟨'m', _, by rw [hr, show ("mode" : String).data = ['m', 'o', 'd', 'e'] from rfl]; rfl,
        by decide⟩
    · exact ⟨'t', _, by rw [hr, show ("type" : String).data = ['t', 'y', 'p', 'e'] from rfl]; rfl,
        by decide⟩
    · exact ⟨'p', _, by rw [hr, show ("perm" : String).data = ['p', 'e', 'r', 'm'] from rfl]; rfl,
        by decide⟩
  · rw [tagsString_eq_render, hsplit, List.map_cons]
    apply joinSep_ends
    · simp
    · intro s hs
      rw [← List.map_cons] at hs
      obtain ⟨kv, _, rfl⟩ := List.mem_map.1 hs
      exact renderPair_last kv

/-! ### The tag pattern on serialised labels -/

theorem tagScan_no_quote : ∀ (cs acc : List Char) (best : Option (List Char × List Char)),
    (∀ c ∈ cs, c ≠ '\'') → tagScan cs acc best = best
  | [], _, _, _ => rfl
  | c :: cs, acc, best, h => by
    rw [tagScan]
    by_cases hb : c = '`'
    · rw [if_pos hb]
    · rw [if_neg hb, if_neg (by simp [h c (List.mem_cons_self c cs)])]
      exact tagScan_no_quote cs (acc ++ [c]) best (fun x hx => h x (List.mem_cons_of_mem c hx))

theorem tagScan_app : ∀ (l cs acc : List Char) (best : Option (List Char × List Char)),
    (∀ c ∈ l, c ≠ '\'' ∧ c ≠ '`') →
    tagScan (l ++ cs) acc best = tagScan cs (acc ++ l) best
  | [], cs, acc, best, _ => by simp
  | c :: l, cs, acc, best, h => by
    have hc := h c (List.mem_cons_self c l)
    rw [List.cons_append, tagScan, if_neg hc.2, if_neg (by simp [hc.1])]
    rw [tagScan_app l cs (acc ++ [c]) best (fun x hx => h x (List.mem_cons_of_mem c hx))]
    rw [List.append_assoc, List.singleton_append]

/-- On a label `name ++ " '" ++ ts ++ "'"` with a quote-free name not ending
in whitespace and a nonempty quote- and backquote-free tag block, the
reversed regexp scan finds exactly the tag block with its leading space. -/
theorem tagFindRev_label (name ts : String)
    (hnq : ∀ c ∈ name.data, c ≠ '\'')
    (hts : ∀ c ∈ ts.data, c ≠ '\'' ∧ c ≠ '`')
    (c0 : Char) (r0 : List Char) (hts0 : ts.data = c0 :: r0)
    (cn : Char) (rn : List Char) (hn : name.data.reverse = cn :: rn)
    (hws : isGoWs cn = false) :
    tagFindRev (name ++ " '" ++ ts ++ "'").data.reverse =
      some ('\'' :: ts.data.reverse ++ '\'' :: [' ']) := by
  have hdata : (name ++ " '" ++ ts ++ "'").data.reverse =
      '\'' :: (ts.data.reverse ++ ('\'' :: ' ' :: name.data.reverse)) := by
    simp [String.data_append]
  rw [hdata, tagFindRev]
  rw [tagScan_app ts.data.reverse _ [] none (fun c hc => hts c (List.mem_reverse.1 hc))]
  rw [tagScan]
  rw [if_neg (by decide), if_pos (by simp [hts0])]
  rw [tagScan_no_quote _ _ _ ?hq]
  case hq =>
    intro c hc
    rcases List.mem_cons.1 hc with rfl | hc'
    · decide
    · exact hnq c (List.mem_reverse.1 hc')
  simp only [Option.map_some']
  rw [show (' ' :: name.data.reverse).takeWhile isGoWs =
      ' ' :: name.data.reverse.takeWhile isGoWs by
    rw [List.takeWhile_cons, if_pos (by decide)]]
  rw [hn, List.takeWhile_cons, if_neg (by simp [hws])]
  simp

theorem tagFindString_label (name ts : String)
    (hnq : ∀ c ∈ name.data, c ≠ '\'')
    (hts : ∀ c ∈ ts.data, c ≠ '\'' ∧ c ≠ '`')
    (c0 : Char) (r0 : List Char) (hts0 : ts.data = c0 :: r0)
    (cn : Char) (rn : List Char) (hn : name.data.reverse = cn :: rn)
    (hws : isGoWs cn = false) :
    tagFindString (name ++ " '" ++ ts ++ "'") = " '" ++ ts ++ "'" := by
  unfold tagFindString
  rw [tagFindRev_label name ts hnq hts c0 r0 hts0 cn rn hn hws]
  apply string_data_inj
  simp [String.data_append]

theorem tagMatchString_label (name ts : String)
    (hnq : ∀ c ∈ name.data, c ≠ '\'')
    (hts : ∀ c ∈ ts.data, c ≠ '\'' ∧ c ≠ '`')
    (c0 : Char) (r0 : List Char) (hts0 : ts.data = c0 :: r0)
    (cn : Char) (rn : List Char) (hn : name.data.reverse = cn :: rn)
    (hws : isGoWs cn = false) :
    tagMatchString (name ++ " '" ++ ts ++ "'") = true := by
  unfold tagMatchString
  rw [tagFindRev_label name ts hnq hts c0 r0 hts0 cn rn hn hws]
  rfl

/-- A subject not ending in a quote does not match the tag pattern. -/
theorem tagFindRev_none (c : Char) (r : List Char) (hc : c ≠ '\'') :
    tagFindRev (c :: r) = none := by
  unfold tagFindRev
  split
  · rename_i heq
    cases heq
    exact absurd rfl hc
  · rfl

/-! ### Go trims on serialised labels -/

theorem dropPre_app : ∀ p s : List Char, dropPre p (p ++ s) = some s
  | [], s => rfl
  | c :: p, s => by rw [List.cons_append, dropPre, if_pos rfl, dropPre_app p s]

theorem trimSuffixGo_app (name suf : String) :
    trimSuffixGo (name ++ suf) suf = name := by
  unfold trimSuffixGo
  rw [show (name ++ suf).data.reverse = suf.data.reverse ++ name.data.reverse by
    simp [String.data_append]]
  rw [dropPre_app]
  apply string_data_inj
  simp

theorem trimSpacesGo_id (s : String)
    (h1 : ∀ c r, s.data = c :: r → c ≠ ' ')
    (h2 : ∀ c r, s.data.reverse = c :: r → c ≠ ' ') :
    trimSpacesGo s = s := by
  unfold trimSpacesGo
  have e1 : s.data.dropWhile (fun c => c = ' ') = s.data := by
    cases hd : s.data with
    | nil => rfl
    | cons c r => rw [List.dropWhile_cons, if_neg (by simp [h1 c r hd])]
  rw [e1]
  have e2 : s.data.reverse.dropWhile (fun c => c = ' ') = s.data.reverse := by
    cases hd : s.data.reverse with
    | nil => rfl
    | cons c r => rw [List.dropWhile_cons, if_neg (by simp [h2 c r hd])]
  rw [e2]
  apply string_data_inj
  simp

theorem prepare_wrap (ts : String)
    (c0 : Char) (r0 : List Char) (hts0 : ts.data = c0 :: r0) (hc0 : isCutChar c0 = false)
    (r1 : List Char) (hlast : ts.data = r1 ++ ['"']) :
    prepareTagsString (" '" ++ ts ++ "'") = ts := by
  unfold prepareTagsString
  rw [show (" '" ++ ts ++ "'").data = ' ' :: '\'' :: (ts.data ++ ['\'']) by
    simp [String.data_append]]
  rw [List.dropWhile_cons, if_pos (by decide), List.dropWhile_cons, if_pos (by decide)]
  rw [show (ts.data ++ ['\'']).dropWhile isCutChar = ts.data ++ ['\''] by
    rw [hts0, List.cons_append, List.dropWhile_cons, if_neg (by simp [hc0])]]
  rw [show (ts.data ++ ['\'']).reverse = '\'' :: ts.data.reverse by simp]
  rw [List.dropWhile_cons, if_pos (by decide)]
  rw [show ts.data.reverse.dropWhile isCutChar = ts.data.reverse by
    rw [hlast, show (r1 ++ ['"']).reverse = '"' :: r1.reverse from by simp]
    rw [List.dropWhile_cons, if_neg (by decide)]]
  apply string_data_inj
  simp

theorem goodName_split (s : String) (h : goodName s = true) :
    ∃ c0 r0 cn rn, s.data = c0 :: r0 ∧ s.data.reverse = cn :: rn ∧
      ('\'' ∉ s.data) ∧ c0 ≠ ' ' ∧ isGoWs cn = false := by
  unfold goodName at h
  cases hd : s.data with
  | nil => rw [hd] at h; simp at h
  | cons c0 r0 =>
    cases hrev : s.data.reverse with
    | nil =>
      rw [List.reverse_eq_nil_iff] at hrev
      rw [hrev] at hd
      exact List.noConfusion hd
    | cons cn rn =>
      have hh : s.data.head? = some c0 := by rw [hd]; rfl
      have hl : s.data.getLast? = some cn := by rw [← List.head?_reverse, hrev]; rfl
      rw [hh, hl] at h
      simp only [Bool.and_eq_true, Bool.not_eq_true', bne_iff_ne, ne_eq] at h
      obtain ⟨⟨hq, hsp⟩, hws⟩ := h
      refine ⟨c0, r0, cn, rn, rfl, ?_, ?_, hsp, hws⟩
      · rw [← hd]
        exact hrev
      · rw [← hd]
        intro hm
        simp at hq
        exact hq hm

/-- A good plain name decodes to the plain file node. -/
theorem unmarshalFile_plain (name : String) (hname : goodName name = true) :
    unmarshalFile name = .ok (.mk name [] [] false) := by
  obtain ⟨c0, r0, cn, rn, hd, hrev, hq, hsp, hws⟩ := goodName_split name hname
  have hcnsp : cn ≠ ' ' := by
    intro he
    rw [he] at hws
    exact absurd hws (by decide)
  simp only [unmarshalFile]
  rw [trimSpacesGo_id name (fun c r hcr => by rw [hd] at hcr; cases hcr; exact hsp)
    (fun c r hcr => by rw [hrev] at hcr; cases hcr; exact hcnsp)]
  have hmatch : tagMatchString name = false := by
    unfold tagMatchString
    rw [hrev, tagFindRev_none cn rn
      (fun he => hq (List.mem_reverse.1 (hrev ▸ (he ▸ List.mem_cons_self cn rn))))]
    rfl
  rw [hmatch]
  simp only [Bool.false_eq_true, if_false]
  rw [if_neg (by rw [hd]; simp)]

/-- A good tagged label decodes to the tagged file node. -/
theorem unmarshalFile_tagged (name : String) (t : TagMap) (hname : goodName name = true)
    (htags : tagsOk t = true) (hne : t ≠ []) :
    unmarshalFile (name ++ " '" ++ tagsString t ++ "'") = .ok (.mk name t [] false) := by
  obtain ⟨c0, r0, cn, rn, hd, hrev, hq, hsp, hws⟩ := goodName_split name hname
  have hcanon : t = canonTags t := by
    unfold tagsOk at htags
    simp only [Bool.and_eq_true, decide_eq_true_eq] at htags
    exact htags.1.1.1
  have hcp := canonPairs_ne t hcanon hne
  obtain ⟨⟨cs0, rs0, hts0, hcut⟩, ⟨rs1, hlast⟩⟩ := tagsString_shape t hcp
  have hchars := tagsString_chars t
  have hnq : ∀ c ∈ name.data, c ≠ '\'' := fun c hc he => hq (he ▸ hc)
  have hlabel : (name ++ " '" ++ tagsString t ++ "'").data.reverse =
      '\'' :: ((tagsString t).data.reverse ++ ('\'' :: ' ' :: name.data.reverse)) := by
    simp [String.data_append]
  simp only [unmarshalFile]
  rw [trimSpacesGo_id (name ++ " '" ++ tagsString t ++ "'")
    (fun c r hcr => by
      rw [show (name ++ " '" ++ tagsString t ++ "'").data =
          name.data ++ ([' ', '\''] ++ (tagsString t).data ++ ['\'']) by
        simp [String.data_append], hd, List.cons_append] at hcr
      cases hcr
      exact hsp)
    (fun c r hcr => by
      rw [hlabel] at hcr
      cases hcr
      decide)]
  rw [tagMatchString_label name (tagsString t) hnq hchars cs0 rs0 hts0 cn rn hrev hws]
  simp only [if_true]
  simp only [unmarshalFileWithTags]
  rw [tagFindString_label name (tagsString t) hnq hchars cs0 rs0 hts0 cn rn hrev hws]
  rw [show name ++ " '" ++ tagsString t ++ "'" = name ++ (" '" ++ tagsString t ++ "'") by
    apply string_data_inj
    simp [String.data_append]]
  rw [trimSuffixGo_app name (" '" ++ tagsString t ++ "'")]
  rw [show name.data.isEmpty = false by rw [hd]; rfl]
  simp only [Bool.false_eq_true, if_false]
  rw [prepare_wrap (tagsString t) cs0 rs0 hts0 hcut rs1 hlast]
  rw [unmarshalTags_tagsString t htags]
  rfl

/-! ### Round trip at the tree level -/

theorem c1okNode_parts (name : String) (tags : TagMap) (children : List FileNode)
    (isDir : Bool) (h : c1okNode (.mk name tags children isDir) = true) :
    goodName name = true ∧ tagsOk tags = true ∧
      (isDir = true → children.isEmpty = false ∧ c1okTree children = true) ∧
      (isDir = false → children = []) := by
  simp only [c1okNode, Bool.and_eq_true] at h
  cases isDir with
  | false =>
    simp only [if_false, Bool.false_eq_true] at h
    refine ⟨h.1.1, h.1.2, fun hc => Bool.noConfusion hc, fun _ => ?_⟩
    simpa using h.2
  | true =>
    simp only [if_true, Bool.and_eq_true, Bool.not_eq_true'] at h
    exact ⟨h.1.1, h.1.2, fun _ => h.2, fun hc => Bool.noConfusion hc⟩

theorem c1okTree_parts (n : FileNode) (rest : List FileNode)
    (h : c1okTree (n :: rest) = true) :
    c1okNode n = true ∧ (∀ m ∈ rest, n.name < m.name) ∧ c1okTree rest = true := by
  simp only [c1okTree, Bool.and_eq_true] at h
  refine ⟨h.1.1, fun m hm => ?_, h.2⟩
  have := List.all_eq_true.1 h.1.2 m hm
  simpa using this

theorem c1okTree_pairwise : ∀ l : List FileNode, c1okTree l = true →
    l.Pairwise (fun a b => a.name < b.name)
  | [], _ => List.Pairwise.nil
  | n :: rest, h => by
    obtain ⟨_, hall, hrest⟩ := c1okTree_parts n rest h
    exact List.pairwise_cons.2 ⟨hall, c1okTree_pairwise rest hrest⟩

theorem c1okTree_mem : ∀ l : List FileNode, c1okTree l = true →
    ∀ n ∈ l, c1okNode n = true
  | [], _, n, hn => absurd hn (List.not_mem_nil n)
  | m :: rest, h, n, hn => by
    obtain ⟨hm, _, hrest⟩ := c1okTree_parts m rest h
    rcases List.mem_cons.1 hn with rfl | hn'
    · exact hm
    · exact c1okTree_mem rest hrest n hn'

theorem nodeSet_append_new (acc : List FileNode) (n : FileNode)
    (h : ∀ m ∈ acc, m.name ≠ n.name) : nodeSet acc n = acc ++ [n] := by
  induction acc with
  | nil => rfl
  | cons m rest ih =>
    rw [show nodeSet (m :: rest) n =
        if m.name = n.name then n :: rest else m :: nodeSet rest n from rfl]
    rw [if_neg (h m (List.mem_cons_self m rest))]
    rw [ih (fun x hx => h x (List.mem_cons_of_mem m hx))]
    rfl

theorem foldl_nodeSet_append : ∀ (l acc : List FileNode),
    (∀ m ∈ acc, ∀ n ∈ l, m.name ≠ n.name) →
    l.Pairwise (fun a b => a.name ≠ b.name) →
    l.foldl nodeSet acc = acc ++ l
  | [], acc, _, _ => by simp
  | n :: rest, acc, hdisj, hpw => by
    rw [List.foldl_cons,
      nodeSet_append_new acc n (fun m hm => hdisj m hm n (List.mem_cons_self n rest))]
    rw [foldl_nodeSet_append rest (acc ++ [n]) ?_ (List.pairwise_cons.1 hpw).2]
    · simp
    · intro m hm n' hn'
      rcases List.mem_append.1 hm with h1 | h1
      · exact hdisj m h1 n' (List.mem_cons_of_mem n hn')
      · have hm' : m = n := by simpa using h1
        subst hm'
        exact (List.pairwise_cons.1 hpw).1 n' hn'

theorem attach_map_marshal (l : List FileNode) :
    l.attach.map (fun c => marshalNode c.1) = l.map marshalNode := by
  exact List.attach_map_val l marshalNode

theorem marshalNode_file (name : String) (tags : TagMap) (children : List FileNode) :
    marshalNode (.mk name tags children false) =
      .str (if tags.isEmpty then name else name ++ " '" ++ tagsString tags ++ "'") := by
  rw [marshalNode]
  simp only [Bool.not_false, if_true]

theorem marshalNode_dir (name : String) (tags : TagMap) (children : List FileNode)
    (hne : children.isEmpty = false)
    (hsorted : children.Pairwise (fun a b => a.name < b.name)) :
    marshalNode (.mk name tags children true) =
      .map [(.str (if tags.isEmpty then name else name ++ " '" ++ tagsString tags ++ "'"),
        .seq (children.map marshalNode))] := by
  rw [marshalNode]
  simp only [Bool.not_true, Bool.false_eq_true, if_false, hne]
  rw [sortBy_eq_self FileNode.name children hsorted, attach_map_marshal children]

theorem marshalNode_shape (n : FileNode) :
    (∃ s, marshalNode n = .str s) ∨ (∃ es, marshalNode n = .map es) := by
  rcases n with ⟨name, tags, children, isDir⟩
  rw [marshalNode]
  cases isDir <;> simp

mutual

/-- A serialisation-safe node decodes from its own marshalling. -/
theorem roundNode : ∀ n : FileNode, c1okNode n = true →
    unmarshalNode (marshalNode n) = .ok n
  | .mk name tags children isDir, hok => by
    obtain ⟨hname, htags, hdir, hfile⟩ := c1okNode_parts name tags children isDir hok
    cases isDir with
    | false =>
      have hch : children = [] := hfile rfl
      subst hch
      rw [marshalNode_file name tags []]
      rw [show unmarshalNode (.str (if tags.isEmpty then name
            else name ++ " '" ++ tagsString tags ++ "'")) =
          unmarshalFile (if tags.isEmpty then name
            else name ++ " '" ++ tagsString tags ++ "'") from rfl]
      cases tags with
      | nil =>
        simp only [List.isEmpty_nil, if_true]
        exact unmarshalFile_plain name hname
      | cons a b =>
        simp only [List.isEmpty_cons, Bool.false_eq_true, if_false]
        exact unmarshalFile_tagged name (a :: b) hname htags (by simp)
    | true =>
      obtain ⟨hne, hctree⟩ := hdir rfl
      have hpw := c1okTree_pairwise children hctree
      rw [marshalNode_dir name tags children hne hpw]
      simp only [unmarshalNode, unmarshalFolder, decodeStrYaml, bind, Except.bind]
      have hfile1 : unmarshalFile (if tags.isEmpty then name
          else name ++ " '" ++ tagsString tags ++ "'") = .ok (.mk name tags [] false) := by
        cases tags with
        | nil =>
          simp only [List.isEmpty_nil, if_true]
          exact unmarshalFile_plain name hname
        | cons a b =>
          simp only [List.isEmpty_cons, Bool.false_eq_true, if_false]
          exact unmarshalFile_tagged name (a :: b) hname htags (by simp)
      rw [hfile1]
      simp only [Except.bind]
      simp only [decodeFileTree]
      rw [roundTree children (c1okTree_mem children hctree)]
      rw [show Except.map (fun l => l.foldl nodeSet []) (Except.ok children) =
          (.ok (children.foldl nodeSet []) : Except String (List FileNode)) from rfl]
      rw [foldl_nodeSet_append children [] (by simp)
        (hpw.imp (fun hlt => ne_of_lt hlt))]
      rfl

/-- A level of serialisation-safe nodes decodes element-wise. -/
theorem roundTree : ∀ l : List FileNode, (∀ n ∈ l, c1okNode n = true) →
    decodeNodeList (l.map marshalNode) = .ok l
  | [], _ => rfl
  | n :: rest, h => by
    rw [List.map_cons]
    simp only [decodeNodeList]
    rcases marshalNode_shape n with ⟨s, hs⟩ | ⟨es, hs⟩ <;>
      rw [hs] <;> simp only [] <;> rw [← hs] <;>
      rw [roundNode n (h n (List.mem_cons_self n rest))] <;>
      rw [roundTree rest (fun x hx => h x (List.mem_cons_of_mem n hx))] <;> rfl

end

/-- C1 (amended): `FileTree.UnmarshalYAML` of a `MarshalYAML` serialisation
reproduces the tree — for serialisation-safe trees (nonempty, names good,
tags canonical with codec-safe values, directories nonempty, levels strictly
name-sorted); the decoded tree flattens identically to the original.  As
stated over all duplicate-free trees the claim fails
(`yaml_round_trip_counterexample`: the empty tree marshals to `{}`, which
does not decode). -/
theorem yaml_round_trip (T : List FileNode) (h : c1okRoot T = true) :
    ∃ T', yamlDecodeFileTree (marshalTree T) = .ok T' ∧
      ∀ p, mapGet (flattenTree T' "") p = mapGet (flattenTree T "") p := by
  refine ⟨T, ?_, fun p => rfl⟩
  unfold c1okRoot at h
  simp only [Bool.and_eq_true, Bool.not_eq_true'] at h
  obtain ⟨hne, htree⟩ := h
  unfold yamlDecodeFileTree marshalTree
  rw [hne]
  simp only [Bool.false_eq_true, if_false]
  rw [sortBy_eq_self FileNode.name T (c1okTree_pairwise T htree)]
  simp only [decodeFileTree]
  rw [roundTree T (c1okTree_mem T htree)]
  rw [show Except.map (fun l => l.foldl nodeSet []) (Except.ok T) =
      (.ok (T.foldl nodeSet []) : Except String (List FileNode)) from rfl]
  rw [foldl_nodeSet_append T [] (by simp)
    ((c1okTree_pairwise T htree).imp (fun hlt => ne_of_lt hlt))]
  rfl

theorem yaml_round_trip_witness :
    c1okRoot [FileNode.mk "bar" [] [] false] = true ∧
    ∃ T', yamlDecodeFileTree (marshalTree [FileNode.mk "bar" [] [] false]) = .ok T' ∧
      ∀ p, mapGet (flattenTree T' "") p =
        mapGet (flattenTree [FileNode.mk "bar" [] [] false] "") p :=
  ⟨by decide, yaml_round_trip [FileNode.mk "bar" [] [] false] (by decide)⟩

end Aferoassert
